import Mathlib

/-!
A verification development for the Connect-Four game-tree search engine in
`02-GameTrees/agents.py`: the position evaluator, the move orderer, the
alpha-beta minimax search, the NegaScout search, and the agent entry points.

The board/rules collaborator (`state.py`, the `State` class) is not part of
the core under verification; following the design document it is modelled
from the spec as a 42-bit bitboard (bit `6*c + r` is column `c`, row `r`
counted from the bottom).  Everything else is translated directly from
`agents.py`.

Python's `math.inf` / `-math.inf` sentinels are modelled by the type `XInt`
of integers extended with two infinities; `-alpha - 1` on floats satisfies
`inf - 1 = inf`, mirrored by `XInt.sub1`.  The mutable `node.chosen_succ`
field is modelled by returning the final value of the field next to the
score; the recursion is driven by an explicit fuel counter (43 is enough
fuel for any position of the 42-cell board, see `freeCells_lt_fuel`).
-/

/-- The two players (`State.RED` / `State.YEL`). -/
inductive Player where
  | red : Player
  | yel : Player
deriving DecidableEq, Repr

/-- The opponent of a player (`State.RED if max_player == State.YEL else State.YEL`). -/
def Player.other : Player → Player
  | .red => .yel
  | .yel => .red

/-- A decided game: one of the players won, or the game is a draw
(`State.RED` / `State.YEL` / `State.DRAW` as values of `get_state_status`). -/
inductive GS where
  | player : Player → GS
  | draw : GS
deriving DecidableEq, Repr

/-- Integers extended with `-math.inf` and `math.inf`. -/
inductive XInt where
  | negInf : XInt
  | fin : Int → XInt
  | posInf : XInt
deriving DecidableEq, Repr

/-- Boolean order on `XInt`. -/
def XInt.ble : XInt → XInt → Bool
  | .negInf, _ => true
  | _, .posInf => true
  | .fin m, .fin n => m ≤ n
  | .posInf, _ => false
  | .fin _, .negInf => false

instance : LinearOrder XInt where
  le a b := XInt.ble a b = true
  le_refl a := by cases a <;> simp [XInt.ble]
  le_trans a b c := by
    cases a <;> cases b <;> cases c <;> simp [XInt.ble] <;> omega
  le_antisymm a b := by
    cases a <;> cases b <;> simp [XInt.ble] <;> omega
  le_total a b := by
    cases a <;> cases b <;> simp [XInt.ble] <;> omega
  decidableLE a b := inferInstanceAs (Decidable (XInt.ble a b = true))

instance : ∀ a b : XInt, Decidable (a ≤ b) := fun a b =>
  inferInstanceAs (Decidable (XInt.ble a b = true))

instance : ∀ a b : XInt, Decidable (a < b) := fun a b =>
  decidable_of_iff (¬ b ≤ a) not_le

instance : ∀ a b : XInt, Decidable (a ≥ b) := fun a b =>
  inferInstanceAs (Decidable (XInt.ble b a = true))

instance : ∀ a b : XInt, Decidable (a > b) := fun a b =>
  decidable_of_iff (¬ a ≤ b) not_le

/-- Negation on `XInt` (IEEE: `-inf` and `inf` swap). -/
def XInt.neg : XInt → XInt
  | .negInf => .posInf
  | .fin n => .fin (-n)
  | .posInf => .negInf

instance : Neg XInt := ⟨XInt.neg⟩

/-- Subtracting one (IEEE: `inf - 1 = inf`, `-inf - 1 = -inf`). -/
def XInt.sub1 : XInt → XInt
  | .negInf => .negInf
  | .fin n => .fin (n - 1)
  | .posInf => .posInf

theorem XInt.le_def {a b : XInt} : a ≤ b ↔ XInt.ble a b = true := Iff.rfl

theorem XInt.lt_def {a b : XInt} : a < b ↔ XInt.ble b a = false := by
  rw [lt_iff_le_not_le]
  cases a <;> cases b <;> simp [XInt.le_def, XInt.ble] <;> omega

@[simp] theorem XInt.neg_negInf : -XInt.negInf = XInt.posInf := rfl

@[simp] theorem XInt.neg_posInf : -XInt.posInf = XInt.negInf := rfl

@[simp] theorem XInt.neg_fin (n : Int) : -XInt.fin n = XInt.fin (-n) := rfl

@[simp] theorem XInt.fin_le_fin {m n : Int} : (XInt.fin m ≤ XInt.fin n) ↔ m ≤ n := by
  simp [XInt.le_def, XInt.ble]

@[simp] theorem XInt.fin_lt_fin {m n : Int} : (XInt.fin m < XInt.fin n) ↔ m < n := by
  simp [XInt.lt_def, XInt.ble]

@[simp] theorem XInt.negInf_le (a : XInt) : XInt.negInf ≤ a := by
  cases a <;> simp [XInt.le_def, XInt.ble]

@[simp] theorem XInt.le_posInf (a : XInt) : a ≤ XInt.posInf := by
  cases a <;> simp [XInt.le_def, XInt.ble]

@[simp] theorem XInt.negInf_lt_fin (n : Int) : XInt.negInf < XInt.fin n := by
  simp [XInt.lt_def, XInt.ble]

@[simp] theorem XInt.fin_lt_posInf (n : Int) : XInt.fin n < XInt.posInf := by
  simp [XInt.lt_def, XInt.ble]

@[simp] theorem XInt.negInf_lt_posInf : XInt.negInf < XInt.posInf := by
  simp [XInt.lt_def, XInt.ble]

@[simp] theorem XInt.not_lt_negInf (a : XInt) : ¬ a < XInt.negInf := by
  cases a <;> simp [XInt.lt_def, XInt.ble]

@[simp] theorem XInt.not_posInf_lt (a : XInt) : ¬ XInt.posInf < a := by
  cases a <;> simp [XInt.lt_def, XInt.ble]

@[simp] theorem XInt.le_negInf_iff {a : XInt} : a ≤ XInt.negInf ↔ a = XInt.negInf := by
  cases a <;> simp [XInt.le_def, XInt.ble]

@[simp] theorem XInt.posInf_le_iff {a : XInt} : XInt.posInf ≤ a ↔ a = XInt.posInf := by
  cases a <;> simp [XInt.le_def, XInt.ble]

@[simp] theorem XInt.neg_neg (a : XInt) : - - a = a := by
  cases a <;> simp

@[simp] theorem XInt.neg_le_neg_iff {a b : XInt} : -a ≤ -b ↔ b ≤ a := by
  cases a <;> cases b <;> simp [XInt.le_def, XInt.ble] <;> omega

@[simp] theorem XInt.neg_lt_neg_iff {a b : XInt} : -a < -b ↔ b < a := by
  cases a <;> cases b <;> simp [XInt.lt_def, XInt.ble] <;> omega

theorem XInt.no_int_between {n : Int} {c : XInt}
    (h1 : XInt.fin n < c) (h2 : c < XInt.fin (n + 1)) : False := by
  cases c with
  | negInf => exact absurd h1 (XInt.not_lt_negInf _)
  | posInf => exact absurd h2 (by simp [XInt.lt_def, XInt.ble])
  | fin m =>
    rw [XInt.fin_lt_fin] at h1 h2
    omega

/-- Modelled from the spec: the `Position` value owned by the collaborator
(`state.py`, not part of the core): per-player 42-bit token bitmasks laid out
as bit `6*c + r` for column `c` (0..6) and row `r` (0..5, bottom = 0), plus
whose turn it is. -/
structure State where
  red : Nat
  yel : Nat
  next : Player
deriving DecidableEq, Repr

/-- Modelled from the spec: `getPlayerTokens(position, player) → bitmask` of
occupied cells. -/
def State.get_checkers (s : State) (p : Player) : Nat :=
  match p with
  | .red => s.red
  | .yel => s.yel

/-- Modelled from the spec: `getNextToMove(position) → player`. -/
def State.get_next_on_move (s : State) : Player := s.next

/-- Modelled from the spec: the complete static set of winning 4-in-a-row
line masks (21 vertical, 24 horizontal, 12 rising-diagonal and 12
falling-diagonal lines: 69 masks in total). -/
def State.win_masks : List Nat :=
  ((List.range 7).flatMap fun c => (List.range 3).map fun r =>
    15 <<< (6 * c + r)) ++
  ((List.range 4).flatMap fun c => (List.range 6).map fun r =>
    (1 + (1 <<< 6) + (1 <<< 12) + (1 <<< 18)) <<< (6 * c + r)) ++
  ((List.range 4).flatMap fun c => (List.range 3).map fun r =>
    (1 + (1 <<< 7) + (1 <<< 14) + (1 <<< 21)) <<< (6 * c + r)) ++
  ((List.range 4).flatMap fun c => (List.range 3).map fun r =>
    (1 + (1 <<< 5) + (1 <<< 10) + (1 <<< 15)) <<< (6 * c + 3 + r))

/-- Modelled from the spec: `getStatus(position)`; `none` means the game is
still in progress, a full board with no connect-four is a draw. -/
def State.get_state_status (s : State) : Option GS :=
  if State.win_masks.any (fun m => m &&& s.red = m) then some (GS.player .red)
  else if State.win_masks.any (fun m => m &&& s.yel = m) then some (GS.player .yel)
  else if (List.range 42).all (fun i => (s.red ||| s.yel).testBit i) then some GS.draw
  else none

/-- Modelled from the spec: `getPossibleColumns(position)` — the ordered
sequence of non-full columns (a column is non-full when its top cell,
bit `6*c + 5`, is free). -/
def State.get_possible_columns (s : State) : List Nat :=
  (List.range 7).filter (fun c => !(s.red ||| s.yel).testBit (6 * c + 5))

/-- Modelled from the spec: the lowest free row of a column (tokens drop to
the bottom). -/
def lowestFreeRow (board c : Nat) : Option Nat :=
  (List.range 6).find? (fun r => !board.testBit (6 * c + r))

/-- Modelled from the spec: `generateSuccessor(position, column)` — the
player to move drops a token into the lowest free cell of the column and the
turn passes to the opponent.  (Only ever invoked on non-full columns; on a
full column we return the position unchanged.) -/
def State.generate_successor_state (s : State) (c : Nat) : State :=
  match lowestFreeRow (s.red ||| s.yel) c with
  | none => s
  | some r =>
    match s.next with
    | .red => { red := s.red ||| (1 <<< (6 * c + r)), yel := s.yel, next := .yel }
    | .yel => { red := s.red, yel := s.yel ||| (1 <<< (6 * c + r)), next := .red }

/-- Gravity invariant of reachable positions: an occupied cell never floats
above a free cell of the same column. -/
def gravityOK (board : Nat) : Bool :=
  (List.range 7).all fun c => (List.range 5).all fun r =>
    !board.testBit (6 * c + r + 1) || board.testBit (6 * c + r)

/-- Well-formed positions: the two token masks are disjoint 42-bit values
and satisfy gravity (spec §3: at most one player occupies any given cell;
positions are produced by dropping tokens). -/
def WFState (s : State) : Bool :=
  (s.red &&& s.yel == 0) && (s.red < (1 <<< 42) : Bool) && (s.yel < (1 <<< 42) : Bool)
    && gravityOK (s.red ||| s.yel)

/-- `count_tokens(checkers)` from `agents.py`: the loop tests the 42 board
bits with a mask that starts at 1 and is shifted left once per iteration,
so at iteration `i` the mask is `1 <<< i`. -/
def count_tokens (checkers : Nat) : Nat :=
  (List.range 42).foldl
    (fun cnt i => if checkers &&& (1 <<< i) ≠ 0 then cnt + 1 else cnt) 0

/-- `node_evaluation(state)` from `agents.py`: terminal positions score
`±(1000 − tokens placed by the winner)` (0 for a draw); otherwise the count
of win masks still open for the MAX player minus the count still open for
the MIN player.  The module globals `max_player` / `min_player` are the
parameter `mp` and its opponent. -/
def node_evaluation (mp : Player) (s : State) : Int :=
  let status := s.get_state_status
  if status = some (GS.player mp) then
    1000 - (count_tokens (s.get_checkers mp) : Int)
  else if status = some (GS.player mp.other) then
    -1000 + (count_tokens (s.get_checkers mp.other) : Int)
  else if status = some GS.draw then 0
  else
    let max_player_tokens := s.get_checkers mp
    let min_player_tokens := s.get_checkers mp.other
    let counts := State.win_masks.foldl
      (fun (p : Nat × Nat) mask =>
        (if mask &&& min_player_tokens = 0 then p.1 + 1 else p.1,
         if mask &&& max_player_tokens = 0 then p.2 + 1 else p.2))
      (0, 0)
    (counts.1 : Int) - (counts.2 : Int)

/-- `col_priority(column)` from `agents.py`. -/
def col_priority (column : Nat) : Nat :=
  [1, 3, 5, 6, 4, 2, 0].getD column 0

/-- `is_terminal_node(state)` from `agents.py`: the game has ended when
`get_state_status` is not `None`. -/
def is_terminal_node (s : State) : Bool :=
  s.get_state_status.isSome

/-- The key used by `sorted(..., key=lambda column: (node_evaluation(...),
col_priority(column)), reverse=True)` in both searches. -/
def sortKey (mp : Player) (s : State) (column : Nat) : Int × Nat :=
  (node_evaluation mp (s.generate_successor_state column), col_priority column)

/-- `reverse=True` sorting: `c` may precede `c'` when its key is
lexicographically at least the key of `c'`. -/
def sortLe (mp : Player) (s : State) (c c' : Nat) : Bool :=
  let k := sortKey mp s c
  let k' := sortKey mp s c'
  decide (k'.1 < k.1) || (decide (k'.1 = k.1) && decide (k'.2 ≤ k.2))

/-- The `for col in sorted_cols` loop of `minimax_ab` for the MAX player:
track the best score, raise `alpha` to it and remember the column on strict
improvement, break once `alpha ≥ beta`.  The loop state `(score, alpha,
beta, chosen)` is threaded explicitly; `recCall` is the recursive call on a
successor state (window passed through, `min_player` to move, `depth + 1`). -/
def abMaxLoop (recCall : State → XInt → XInt → XInt × Option Nat) (s : State) :
    List Nat → XInt → XInt → XInt → Option Nat → XInt × Option Nat
  | [], score, _, _, chosen => (score, chosen)
  | col :: rest, score, alpha, beta, chosen =>
    let child_score := (recCall (s.generate_successor_state col) alpha beta).1
    if child_score > score then
      if child_score ≥ beta then (child_score, some col)
      else abMaxLoop recCall s rest child_score child_score beta (some col)
    else
      if alpha ≥ beta then (score, chosen)
      else abMaxLoop recCall s rest score alpha beta chosen

/-- The `for col in sorted_cols` loop of `minimax_ab` for the MIN player:
track the worst score, lower `beta` to it and remember the column on strict
improvement, break once `alpha ≥ beta`. -/
def abMinLoop (recCall : State → XInt → XInt → XInt × Option Nat) (s : State) :
    List Nat → XInt → XInt → XInt → Option Nat → XInt × Option Nat
  | [], score, _, _, chosen => (score, chosen)
  | col :: rest, score, alpha, beta, chosen =>
    let child_score := (recCall (s.generate_successor_state col) alpha beta).1
    if child_score < score then
      if alpha ≥ child_score then (child_score, some col)
      else abMinLoop recCall s rest child_score alpha child_score (some col)
    else
      if alpha ≥ beta then (score, chosen)
      else abMinLoop recCall s rest score alpha beta chosen

/-- `minimax_ab(node, player, alpha, beta, depth)` from `agents.py`.  The
globals `max_player` and `max_depth` are the parameters `mp` and `md`
(`min_player` is always set to `mp.other` by the agents); the pair returned
is `(score, final value of node.chosen_succ)`; `fuel` drives the recursion
(see `freeCells_lt_fuel`). -/
def minimax_ab (mp : Player) (md : XInt) :
    Nat → State → Player → XInt → XInt → Nat → XInt × Option Nat
  | 0, _, _, _, _, _ => (.fin 0, none)
  | fuel + 1, s, player, alpha, beta, depth =>
    if is_terminal_node s = true ∨ XInt.fin depth = md then
      (.fin (node_evaluation mp s), none)
    else
      let sorted_cols := (s.get_possible_columns).mergeSort (sortLe mp s)
      if player = mp then
        abMaxLoop (fun s' a b => minimax_ab mp md fuel s' mp.other a b (depth + 1))
          s sorted_cols .negInf alpha beta none
      else
        abMinLoop (fun s' a b => minimax_ab mp md fuel s' mp a b (depth + 1))
          s sorted_cols .posInf alpha beta none

/-- The `for col in sorted_cols` loop of `negascout`: the first ordered
column (`col == sorted_cols[0]`) is searched with the full window and
recorded as chosen; every other column is probed with the null window
`(-alpha - 1, -alpha)` and re-searched with the full window (updating the
chosen column) only when the probe lands strictly inside `(alpha, beta)`;
after each column the running best and `alpha` are raised and the loop
breaks once `alpha ≥ beta`. -/
def nsLoop (recCall : State → XInt → XInt → XInt × Option Nat) (s : State)
    (firstCol : Nat) :
    List Nat → XInt → XInt → XInt → Option Nat → XInt × Option Nat
  | [], score, _, _, chosen => (score, chosen)
  | col :: rest, score, alpha, beta, chosen =>
    if col = firstCol then
      let child_score := -(recCall (s.generate_successor_state col) (-beta) (-alpha)).1
      let score' := max score child_score
      let alpha' := max alpha score'
      if alpha' ≥ beta then (score', some col)
      else nsLoop recCall s firstCol rest score' alpha' beta (some col)
    else
      let probe := -(recCall (s.generate_successor_state col) ((-alpha).sub1) (-alpha)).1
      if alpha < probe ∧ probe < beta then
        let child_score := -(recCall (s.generate_successor_state col) (-beta) (-alpha)).1
        let score' := max score child_score
        let alpha' := max alpha score'
        if alpha' ≥ beta then (score', some col)
        else nsLoop recCall s firstCol rest score' alpha' beta (some col)
      else
        let score' := max score probe
        let alpha' := max alpha score'
        if alpha' ≥ beta then (score', chosen)
        else nsLoop recCall s firstCol rest score' alpha' beta chosen

/-- `negascout(node, player, alpha, beta, depth)` from `agents.py`
(negamax convention: the terminal evaluation is negated when the MIN player
is to move, and `other_player` flips between `max_player` and
`min_player = mp.other`). -/
def negascout (mp : Player) (md : XInt) :
    Nat → State → Player → XInt → XInt → Nat → XInt × Option Nat
  | 0, _, _, _, _, _ => (.fin 0, none)
  | fuel + 1, s, player, alpha, beta, depth =>
    if is_terminal_node s = true ∨ XInt.fin depth = md then
      (.fin (node_evaluation mp s * (if player = mp.other then -1 else 1)), none)
    else
      let other_player := if player = mp.other then mp else mp.other
      let sorted_cols := (s.get_possible_columns).mergeSort (sortLe mp s)
      nsLoop (fun s' a b => negascout mp md fuel s' other_player a b (depth + 1))
        s (sorted_cols.headD 0) sorted_cols .negInf alpha beta none

/-- The module globals of `agents.py` (lines 25-27), all initially `None`. -/
structure Globals where
  max_depth : Option XInt
  max_player : Option Player
  min_player : Option Player
deriving DecidableEq, Repr

/-- The initial global state of the module. -/
def initGlobals : Globals := ⟨none, none, none⟩

/-- `max_depth = depth if depth != 0 else math.inf` (line 61 / 76). -/
def set_max_depth (depth : Nat) : XInt :=
  if depth ≠ 0 then .fin depth else .posInf

/-- 43 units of fuel always suffice: the board has 42 cells, each
non-terminal step fills one. -/
def searchFuel : Nat := 43

/-- `MinimaxABAgent.get_chosen_column(state, depth)`: overwrite the three
module globals, run `minimax_ab` on a fresh root node with the full window
at depth 0, and return the root's `chosen_succ`.  The returned pair is
`(module globals after the call, returned column)`. -/
def MinimaxABAgent.get_chosen_column (g : Globals) (state : State) (depth : Nat) :
    Globals × Option Nat :=
  let mp := state.get_next_on_move
  let minp := if mp = Player.yel then Player.red else Player.yel
  let md := set_max_depth depth
  let g' : Globals := ⟨some md, some mp, some minp⟩
  let root := minimax_ab mp md searchFuel state mp .negInf .posInf 0
  (g', root.2)

/-- `Negascout.get_chosen_column(state, depth)`: identical orchestration,
invoking `negascout`. -/
def Negascout.get_chosen_column (g : Globals) (state : State) (depth : Nat) :
    Globals × Option Nat :=
  let mp := state.get_next_on_move
  let minp := if mp = Player.yel then Player.red else Player.yel
  let md := set_max_depth depth
  let g' : Globals := ⟨some md, some mp, some minp⟩
  let root := negascout mp md searchFuel state mp .negInf .posInf 0
  (g', root.2)

/-- The number of free cells of the board; the measure that shrinks at every
move and certifies that 43 units of fuel always suffice. -/
def freeCells (s : State) : Nat :=
  (List.range 42).countP (fun i => !(s.red ||| s.yel).testBit i)

/-- The plain minimax value of a position: no pruning, children folded in
their natural order.  Both search algorithms are proved to agree with this
value whenever their window brackets it. -/
def minimaxVal (mp : Player) (md : XInt) :
    Nat → State → Player → Nat → XInt
  | 0, _, _, _ => .fin 0
  | fuel + 1, s, player, depth =>
    if is_terminal_node s = true ∨ XInt.fin depth = md then .fin (node_evaluation mp s)
    else if player = mp then
      s.get_possible_columns.foldl
        (fun acc c =>
          max acc (minimaxVal mp md fuel (s.generate_successor_state c) mp.other (depth + 1)))
        XInt.negInf
    else
      s.get_possible_columns.foldl
        (fun acc c =>
          min acc (minimaxVal mp md fuel (s.generate_successor_state c) mp (depth + 1)))
        XInt.posInf

/-- The fail-soft alpha-beta contract: a result `r` of a windowed search
relates to the true value `v` — fail-low results upper-bound `v`, fail-high
results lower-bound `v`, and results inside the window are exact. -/
def FS (r v alpha beta : XInt) : Prop :=
  (r ≤ alpha → v ≤ r) ∧ (alpha < r → r < beta → r = v) ∧ (beta ≤ r → r ≤ v)

/-! ### Counting and bitboard lemmas -/

theorem foldl_ite_count {p : Nat → Prop} [DecidablePred p] (l : List Nat) (n : Nat) :
    l.foldl (fun cnt i => if p i then cnt + 1 else cnt) n
      = n + l.countP (fun i => decide (p i)) := by
  induction l generalizing n with
  | nil => simp
  | cons a l ih =>
    rw [List.foldl_cons, ih, List.countP_cons]
    by_cases h : p a <;> simp [h] <;> omega

theorem and_shift_ne_zero (m i : Nat) : (m &&& (1 <<< i) ≠ 0) ↔ m.testBit i = true := by
  rw [Nat.one_shiftLeft, Nat.and_two_pow]
  cases h : m.testBit i <;> simp

theorem count_tokens_eq (m : Nat) :
    count_tokens m = (List.range 42).countP (fun i => m.testBit i) := by
  rw [count_tokens, foldl_ite_count]
  rw [Nat.zero_add]
  exact List.countP_congr fun i _ => by
    simpa using (and_shift_ne_zero m i)

theorem count_tokens_le_42 (m : Nat) : count_tokens m ≤ 42 := by
  rw [count_tokens_eq]
  calc (List.range 42).countP (fun i => m.testBit i) ≤ (List.range 42).length :=
        List.countP_le_length _
    _ = 42 := List.length_range 42

theorem testBit_or_shift (m k i : Nat) :
    (m ||| (1 <<< k)).testBit i = if i = k then true else m.testBit i := by
  rw [Nat.testBit_or, Nat.one_shiftLeft]
  by_cases h : i = k
  · subst h; simp [Nat.testBit_two_pow_self]
  · simp [h, Nat.testBit_two_pow_of_ne (fun hk => h hk.symm)]

theorem countP_range_or_two_pow {m k : Nat} (n : Nat) (hk : k < n)
    (hfree : m.testBit k = false) :
    (List.range n).countP (fun i => (m ||| (1 <<< k)).testBit i)
      = (List.range n).countP (fun i => m.testBit i) + 1 := by
  induction n with
  | zero => omega
  | succ n ih =>
    rw [List.range_succ, List.countP_append, List.countP_append]
    rcases Nat.lt_or_ge k n with h | h
    · rw [ih h]
      have hb : (m ||| (1 <<< k)).testBit n = m.testBit n := by
        rw [testBit_or_shift]; simp [Nat.ne_of_gt h]
      simp only [List.countP_cons, List.countP_nil]
      rw [hb]
      omega
    · have hkn : k = n := by omega
      subst hkn
      have hcong : (List.range k).countP (fun i => (m ||| (1 <<< k)).testBit i)
          = (List.range k).countP (fun i => m.testBit i) := by
        refine List.countP_congr fun i hi => ?_
        rw [List.mem_range] at hi
        rw [testBit_or_shift]
        simp [Nat.ne_of_lt hi]
      rw [hcong]
      have h1 : (m ||| (1 <<< k)).testBit k = true := by
        rw [testBit_or_shift]; simp
      simp [List.countP_cons, h1, hfree]

theorem countP_not_eq_sub {l : List Nat} {q : Nat → Bool} :
    l.countP (fun i => !q i) = l.length - l.countP q := by
  induction l with
  | nil => simp
  | cons a l ih =>
    have hle : l.countP q ≤ l.length := List.countP_le_length _
    rw [List.countP_cons, List.countP_cons, ih]
    cases h : q a <;> simp [h] <;> omega

/-! ### Board lemmas -/

theorem find?_range_lowest {p : Nat → Bool} {n a : Nat}
    (h : (List.range n).find? p = some a) :
    p a = true ∧ a < n ∧ ∀ b < a, p b = false := by
  induction n with
  | zero => simp at h
  | succ n ih =>
    rw [List.range_succ, List.find?_append] at h
    cases hf : (List.range n).find? p with
    | some x =>
      rw [hf] at h
      simp only [Option.or_some] at h
      cases h
      obtain ⟨h1, h2, h3⟩ := ih hf
      exact ⟨h1, by omega, h3⟩
    | none =>
      rw [hf] at h
      simp only [Option.none_or] at h
      have hall := List.find?_eq_none.mp hf
      rcases hp : p n with _ | _
      · simp [List.find?, hp] at h
      · simp [List.find?, hp] at h
        subst h
        refine ⟨hp, by omega, fun b hb => ?_⟩
        have := hall b (by rw [List.mem_range]; omega)
        simpa using this

theorem lowestFreeRow_spec {board c r : Nat}
    (h : lowestFreeRow board c = some r) :
    r < 6 ∧ board.testBit (6 * c + r) = false ∧
      ∀ q < r, board.testBit (6 * c + q) = true := by
  obtain ⟨h1, h2, h3⟩ := find?_range_lowest h
  refine ⟨h2, by simpa using h1, fun q hq => ?_⟩
  have := h3 q hq
  simpa using this

theorem lowestFreeRow_isSome {board c : Nat}
    (h : board.testBit (6 * c + 5) = false) :
    ∃ r, lowestFreeRow board c = some r := by
  have : (lowestFreeRow board c).isSome := by
    rw [lowestFreeRow, List.find?_isSome]
    exact ⟨5, by simp [List.mem_range], by simp [h]⟩
  exact Option.isSome_iff_exists.mp this

theorem mem_possible_iff {s : State} {c : Nat} :
    c ∈ s.get_possible_columns ↔ c < 7 ∧ (s.red ||| s.yel).testBit (6 * c + 5) = false := by
  rw [State.get_possible_columns, List.mem_filter, List.mem_range]
  simp

/-- The one-step effect of dropping a token: the mover's bitmask gains the
lowest free cell of the column, the opponent's bitmask is unchanged, the
turn flips. -/
theorem generate_successor_spec {s : State} {c : Nat}
    (hc : c ∈ s.get_possible_columns) :
    ∃ r, r < 6 ∧
      (s.red ||| s.yel).testBit (6 * c + r) = false ∧
      (∀ q < r, (s.red ||| s.yel).testBit (6 * c + q) = true) ∧
      s.generate_successor_state c =
        (match s.next with
          | .red => { red := s.red ||| (1 <<< (6 * c + r)), yel := s.yel, next := .yel }
          | .yel => { red := s.red, yel := s.yel ||| (1 <<< (6 * c + r)), next := .red }) := by
  obtain ⟨hc7, htop⟩ := mem_possible_iff.mp hc
  obtain ⟨r, hr⟩ := lowestFreeRow_isSome htop
  obtain ⟨hr6, hfree, hbelow⟩ := lowestFreeRow_spec hr
  refine ⟨r, hr6, hfree, hbelow, ?_⟩
  rw [State.generate_successor_state, hr]

theorem freeCells_lt_fuel (s : State) : freeCells s < searchFuel := by
  have h : freeCells s ≤ 42 := by
    calc freeCells s ≤ (List.range 42).length := List.countP_le_length _
      _ = 42 := List.length_range 42
  rw [searchFuel]; omega

theorem succ_board {s : State} {c : Nat} (hc : c ∈ s.get_possible_columns) :
    ∃ k, k < 42 ∧ (s.red ||| s.yel).testBit k = false ∧
      ((s.generate_successor_state c).red ||| (s.generate_successor_state c).yel)
        = (s.red ||| s.yel) ||| (1 <<< k) := by
  obtain ⟨r, hr6, hfree, _, heq⟩ := generate_successor_spec hc
  obtain ⟨hc7, _⟩ := mem_possible_iff.mp hc
  refine ⟨6 * c + r, by omega, hfree, ?_⟩
  cases hn : s.next <;> simp only [hn] at heq <;> rw [heq] <;>
    apply Nat.eq_of_testBit_eq <;> intro i <;>
    simp [Nat.testBit_or, Bool.or_assoc, Bool.or_comm, Bool.or_left_comm]

theorem freeCells_succ_lt {s : State} {c : Nat} (hc : c ∈ s.get_possible_columns) :
    freeCells (s.generate_successor_state c) < freeCells s := by
  obtain ⟨k, hk42, hfree, hb⟩ := succ_board hc
  have hpos := countP_range_or_two_pow 42 hk42 hfree
  have h1 : freeCells (s.generate_successor_state c)
      = 42 - (List.range 42).countP (fun i => ((s.red ||| s.yel) ||| (1 <<< k)).testBit i) := by
    rw [freeCells, hb, countP_not_eq_sub, List.length_range]
  have h2 : freeCells s = 42 - (List.range 42).countP (fun i => (s.red ||| s.yel).testBit i) := by
    rw [freeCells, countP_not_eq_sub, List.length_range]
  have h3 : (List.range 42).countP (fun i => ((s.red ||| s.yel) ||| (1 <<< k)).testBit i) ≤ 42 := by
    calc _ ≤ (List.range 42).length := List.countP_le_length _
      _ = 42 := List.length_range 42
  omega

theorem gravityOK_iff {board : Nat} : gravityOK board = true ↔
    ∀ c < 7, ∀ r < 5, board.testBit (6 * c + r + 1) = true → board.testBit (6 * c + r) = true := by
  rw [gravityOK]
  simp only [List.all_eq_true, List.mem_range]
  constructor
  · intro h c hc r hr ht
    have := h c hc r hr
    rcases hb : board.testBit (6 * c + r) with _ | _
    · rw [ht, hb] at this; simp at this
    · rfl
  · intro h c hc r hr
    rcases ht : board.testBit (6 * c + r + 1) with _ | _
    · simp [ht]
    · simp [ht, h c hc r hr ht]

theorem cell_inj {c r c' r' : Nat} (hc : c < 7) (hr : r < 6) (hc' : c' < 7) (hr' : r' < 6)
    (h : 6 * c + r = 6 * c' + r') : c = c' ∧ r = r' := by omega

theorem gravity_column_full {board c : Nat} (hg : gravityOK board = true) (hc : c < 7)
    (htop : board.testBit (6 * c + 5) = true) : ∀ r < 6, board.testBit (6 * c + r) = true := by
  have step := gravityOK_iff.mp hg c hc
  have h4 : board.testBit (6 * c + 4) = true := by
    have := step 4 (by omega)
    rw [show 6 * c + 4 + 1 = 6 * c + 5 from by omega] at this
    exact this htop
  have h3 : board.testBit (6 * c + 3) = true := by
    have := step 3 (by omega)
    rw [show 6 * c + 3 + 1 = 6 * c + 4 from by omega] at this
    exact this h4
  have h2 : board.testBit (6 * c + 2) = true := by
    have := step 2 (by omega)
    rw [show 6 * c + 2 + 1 = 6 * c + 3 from by omega] at this
    exact this h3
  have h1 : board.testBit (6 * c + 1) = true := by
    have := step 1 (by omega)
    rw [show 6 * c + 1 + 1 = 6 * c + 2 from by omega] at this
    exact this h2
  have h0 : board.testBit (6 * c + 0) = true := by
    have := step 0 (by omega)
    rw [show 6 * c + 0 + 1 = 6 * c + 1 from by omega] at this
    exact this h1
  intro r hr
  interval_cases r
  · exact h0
  · exact h1
  · exact h2
  · exact h3
  · exact h4
  · exact htop

theorem WFState_iff {s : State} : WFState s = true ↔
    s.red &&& s.yel = 0 ∧ s.red < 1 <<< 42 ∧ s.yel < 1 <<< 42 ∧
      gravityOK (s.red ||| s.yel) = true := by
  rw [WFState]
  simp [Bool.and_eq_true, decide_eq_true_eq]
  tauto

theorem WFState_succ {s : State} {c : Nat} (hw : WFState s = true)
    (hc : c ∈ s.get_possible_columns) :
    WFState (s.generate_successor_state c) = true := by
  obtain ⟨hdisj, hrb, hyb, hg⟩ := WFState_iff.mp hw
  obtain ⟨r, hr6, hfree, hbelow, heq⟩ := generate_successor_spec hc
  obtain ⟨hc7, _⟩ := mem_possible_iff.mp hc
  obtain ⟨k, hk42, hkfree, hb⟩ := succ_board hc
  -- the new occupied cell, named in two ways; identify them
  have hkey : (s.generate_successor_state c).red ||| (s.generate_successor_state c).yel
      = (s.red ||| s.yel) ||| (1 <<< (6 * c + r)) := by
    cases hn : s.next <;> simp only [hn] at heq <;> rw [heq] <;>
      apply Nat.eq_of_testBit_eq <;> intro i <;>
      simp [Nat.testBit_or, Bool.or_assoc, Bool.or_comm, Bool.or_left_comm]
  rw [WFState_iff]
  have hredfree : s.red.testBit (6 * c + r) = false := by
    have := hfree
    rw [Nat.testBit_or] at this
    exact (Bool.or_eq_false_iff.mp this).1
  have hyelfree : s.yel.testBit (6 * c + r) = false := by
    have := hfree
    rw [Nat.testBit_or] at this
    exact (Bool.or_eq_false_iff.mp this).2
  have hpow : (1 : Nat) <<< (6 * c + r) < 1 <<< 42 := by
    rw [Nat.one_shiftLeft, Nat.one_shiftLeft]
    exact Nat.pow_lt_pow_right (by omega) (by omega)
  refine ⟨?_, ?_, ?_, ?_⟩
  · -- disjointness
    cases hn : s.next <;> simp only [hn] at heq <;> rw [heq] <;>
      apply Nat.eq_of_testBit_eq <;> intro i <;>
      simp only [Nat.testBit_and, Nat.zero_testBit, testBit_or_shift]
    · by_cases hik : i = 6 * c + r
      · subst hik; simp [hyelfree]
      · simp only [if_neg hik]
        have := congrArg (fun x => x.testBit i) hdisj
        simpa [Nat.testBit_and] using this
    · by_cases hik : i = 6 * c + r
      · subst hik; simp [hredfree]
      · simp only [if_neg hik]
        have := congrArg (fun x => x.testBit i) hdisj
        simpa [Nat.testBit_and] using this
  · cases hn : s.next <;> simp only [hn] at heq <;> rw [heq]
    · rw [Nat.one_shiftLeft] at hrb hpow ⊢
      exact Nat.or_lt_two_pow hrb (by rw [← Nat.one_shiftLeft] at hpow ⊢; exact hpow)
    · exact hrb
  · cases hn : s.next <;> simp only [hn] at heq <;> rw [heq]
    · exact hyb
    · rw [Nat.one_shiftLeft] at hyb hpow ⊢
      exact Nat.or_lt_two_pow hyb (by rw [← Nat.one_shiftLeft] at hpow ⊢; exact hpow)
  · -- gravity
    rw [hkey, gravityOK_iff]
    intro c' hc' r' hr' htop
    rw [testBit_or_shift] at htop ⊢
    by_cases he1 : 6 * c' + r' = 6 * c + r
    · rw [if_pos he1]
    · rw [if_neg he1]
      by_cases he2 : 6 * c' + r' + 1 = 6 * c + r
      · -- the newly set cell sits directly above (c', r'): same column, r = r' + 1
        have he2' : 6 * c' + (r' + 1) = 6 * c + r := by omega
        have hcc := cell_inj hc' (by omega : r' + 1 < 6) hc7 hr6 he2'
        obtain ⟨hcc1, hcc2⟩ := hcc
        subst hcc1
        exact hbelow r' (by omega)
      · rw [if_neg he2] at htop
        exact gravityOK_iff.mp hg c' hc' r' hr' htop

theorem possible_ne_nil {s : State} (hg : gravityOK (s.red ||| s.yel) = true)
    (hnf : ((List.range 42).all fun i => (s.red ||| s.yel).testBit i) = false) :
    s.get_possible_columns ≠ [] := by
  rw [List.all_eq_false] at hnf
  obtain ⟨i, hi, hfree⟩ := hnf
  rw [List.mem_range] at hi
  simp only [Bool.not_eq_true] at hfree
  intro hnil
  rw [State.get_possible_columns] at hnil
  have hall := List.filter_eq_nil_iff.mp hnil
  have hc7 : i / 6 < 7 := by omega
  have htop : (s.red ||| s.yel).testBit (6 * (i / 6) + 5) = true := by
    have h' := hall (i / 6) (by rw [List.mem_range]; omega)
    rcases hx : (s.red ||| s.yel).testBit (6 * (i / 6) + 5) with _ | _
    · exact absurd (by rw [hx]; rfl) h'
    · rfl
  have hfull := gravity_column_full hg hc7 htop (i % 6) (by omega)
  rw [show 6 * (i / 6) + i % 6 = i from by omega] at hfull
  rw [hfull] at hfree
  cases hfree

theorem status_none_spec {s : State} (h : s.get_state_status = none) :
    (State.win_masks.any fun m => m &&& s.red = m) = false ∧
    (State.win_masks.any fun m => m &&& s.yel = m) = false ∧
    ((List.range 42).all fun i => (s.red ||| s.yel).testBit i) = false := by
  rw [State.get_state_status] at h
  split_ifs at h with h1 h2 h3
  exact ⟨Bool.eq_false_iff.mpr h1, Bool.eq_false_iff.mpr h2, Bool.eq_false_iff.mpr h3⟩

theorem possible_ne_nil_of_status {s : State} (hw : WFState s = true)
    (h : s.get_state_status = none) : s.get_possible_columns ≠ [] := by
  obtain ⟨_, _, _, hg⟩ := WFState_iff.mp hw
  exact possible_ne_nil hg (status_none_spec h).2.2

/-! ### Player and evaluator lemmas -/

@[simp] theorem Player.other_other (p : Player) : p.other.other = p := by
  cases p <;> rfl

@[simp] theorem Player.other_ne (p : Player) : p.other ≠ p := by
  cases p <;> simp [Player.other]

@[simp] theorem Player.ne_other (p : Player) : p ≠ p.other := by
  cases p <;> simp [Player.other]

theorem Player.eq_or_eq_other (p q : Player) : q = p ∨ q = p.other := by
  cases p <;> cases q <;> simp [Player.other]

theorem node_evaluation_win_mp {mp : Player} {s : State}
    (h : s.get_state_status = some (GS.player mp)) :
    node_evaluation mp s = 1000 - (count_tokens (s.get_checkers mp) : Int) := by
  rw [node_evaluation]
  simp [h]

theorem node_evaluation_win_other {mp : Player} {s : State}
    (h : s.get_state_status = some (GS.player mp.other)) :
    node_evaluation mp s = -1000 + (count_tokens (s.get_checkers mp.other) : Int) := by
  rw [node_evaluation]
  simp [h]

theorem node_evaluation_draw {mp : Player} {s : State}
    (h : s.get_state_status = some GS.draw) :
    node_evaluation mp s = 0 := by
  rw [node_evaluation]
  simp [h]

theorem foldl_pair_counts {p q : Nat → Prop} [DecidablePred p] [DecidablePred q]
    (l : List Nat) (a b : Nat) :
    l.foldl (fun (x : Nat × Nat) m =>
        (if p m then x.1 + 1 else x.1, if q m then x.2 + 1 else x.2)) (a, b)
      = (a + l.countP (fun m => decide (p m)), b + l.countP (fun m => decide (q m))) := by
  induction l generalizing a b with
  | nil => simp
  | cons m l ih =>
    rw [List.foldl_cons, List.countP_cons, List.countP_cons]
    by_cases hp : p m <;> by_cases hq : q m <;> simp [hp, hq, ih] <;> omega

theorem node_evaluation_heuristic {mp : Player} {s : State}
    (h : s.get_state_status = none) :
    node_evaluation mp s =
      (State.win_masks.countP (fun m => decide (m &&& s.get_checkers mp.other = 0)) : Int)
        - (State.win_masks.countP (fun m => decide (m &&& s.get_checkers mp = 0)) : Int) := by
  rw [node_evaluation]
  simp only [h]
  rw [if_neg (by simp), if_neg (by simp), if_neg (by simp)]
  rw [foldl_pair_counts]
  simp

theorem win_masks_length : State.win_masks.length = 69 := by decide

theorem node_evaluation_bounds {mp : Player} {s : State}
    (h : s.get_state_status = none) :
    -69 ≤ node_evaluation mp s ∧ node_evaluation mp s ≤ 69 := by
  rw [node_evaluation_heuristic h]
  have h1 : State.win_masks.countP (fun m => decide (m &&& s.get_checkers mp.other = 0)) ≤ 69 := by
    calc _ ≤ State.win_masks.length := List.countP_le_length _
      _ = 69 := win_masks_length
  have h2 : State.win_masks.countP (fun m => decide (m &&& s.get_checkers mp = 0)) ≤ 69 := by
    calc _ ≤ State.win_masks.length := List.countP_le_length _
      _ = 69 := win_masks_length
  omega

/-! ### Move-ordering lemmas -/

theorem sortLe_total (mp : Player) (s : State) (a b : Nat) :
    (sortLe mp s a b || sortLe mp s b a) = true := by
  simp only [sortLe, Bool.or_eq_true, Bool.and_eq_true, decide_eq_true_eq]
  omega

theorem sortLe_trans (mp : Player) (s : State) (a b c : Nat)
    (h1 : sortLe mp s a b = true) (h2 : sortLe mp s b c = true) :
    sortLe mp s a c = true := by
  simp only [sortLe, Bool.or_eq_true, Bool.and_eq_true, decide_eq_true_eq] at h1 h2 ⊢
  omega

theorem sorted_cols_perm (mp : Player) (s : State) :
    (s.get_possible_columns.mergeSort (sortLe mp s)).Perm s.get_possible_columns :=
  List.mergeSort_perm _ _

theorem sorted_cols_mem {mp : Player} {s : State} {c : Nat} :
    c ∈ s.get_possible_columns.mergeSort (sortLe mp s) ↔ c ∈ s.get_possible_columns :=
  (sorted_cols_perm mp s).mem_iff

theorem possible_nodup (s : State) : s.get_possible_columns.Nodup :=
  (List.nodup_range 7).filter _

theorem sorted_cols_nodup (mp : Player) (s : State) :
    (s.get_possible_columns.mergeSort (sortLe mp s)).Nodup :=
  (sorted_cols_perm mp s).nodup_iff.mpr (possible_nodup s)

theorem sorted_cols_pairwise (mp : Player) (s : State) :
    (s.get_possible_columns.mergeSort (sortLe mp s)).Pairwise
      (fun a b => sortLe mp s a b = true) := by
  have := @List.sorted_mergeSort Nat (sortLe mp s)
    (fun a b c => sortLe_trans mp s a b c) (fun a b => sortLe_total mp s a b)
    s.get_possible_columns
  exact this

/-- The head of the descending sort has the (lexicographically) greatest key;
in particular its child evaluation is maximal. -/
theorem sorted_head_eval_ge {mp : Player} {s : State} {h : Nat} {t : List Nat} {c : Nat}
    (hsort : s.get_possible_columns.mergeSort (sortLe mp s) = h :: t)
    (hc : c ∈ s.get_possible_columns) :
    node_evaluation mp (s.generate_successor_state c)
      ≤ node_evaluation mp (s.generate_successor_state h) := by
  rcases List.mem_cons.mp (by rw [← hsort]; exact sorted_cols_mem.mpr hc) with hch | hct
  · subst hch; exact le_refl _
  · have hpw := sorted_cols_pairwise mp s
    rw [hsort] at hpw
    have := (List.pairwise_cons.mp hpw).1 c hct
    simp only [sortLe, Bool.or_eq_true, Bool.and_eq_true, decide_eq_true_eq, sortKey] at this
    omega

/-! ### Effect of one move on checkers and status -/

theorem succ_fields {s : State} {c : Nat} (hc : c ∈ s.get_possible_columns) :
    ∃ k, k < 42 ∧ (s.red ||| s.yel).testBit k = false ∧
      (s.generate_successor_state c).get_checkers s.next
        = s.get_checkers s.next ||| (1 <<< k) ∧
      (s.generate_successor_state c).get_checkers s.next.other
        = s.get_checkers s.next.other ∧
      (s.generate_successor_state c).next = s.next.other := by
  obtain ⟨r, hr6, hfree, _, heq⟩ := generate_successor_spec hc
  obtain ⟨hc7, _⟩ := mem_possible_iff.mp hc
  refine ⟨6 * c + r, by omega, hfree, ?_, ?_, ?_⟩ <;>
    cases hn : s.next <;> simp only [hn] at heq <;> rw [heq] <;>
    simp [State.get_checkers, Player.other]

theorem count_tokens_succ_mover {s : State} {c : Nat} (hc : c ∈ s.get_possible_columns) :
    count_tokens ((s.generate_successor_state c).get_checkers s.next)
      = count_tokens (s.get_checkers s.next) + 1 := by
  obtain ⟨k, hk, hfree, hmv, _, _⟩ := succ_fields hc
  rw [hmv, count_tokens_eq, count_tokens_eq]
  have hown : (s.get_checkers s.next).testBit k = false := by
    rw [Nat.testBit_or] at hfree
    obtain ⟨hr, hy⟩ := Bool.or_eq_false_iff.mp hfree
    cases hn : s.next <;> simp [State.get_checkers, hr, hy]
  exact countP_range_or_two_pow 42 hk hown

theorem status_player_any {t : State} {p : Player}
    (h : t.get_state_status = some (GS.player p)) :
    (State.win_masks.any fun m => m &&& t.get_checkers p = m) = true := by
  rw [State.get_state_status] at h
  split_ifs at h with h1 h2 h3
  · simp only [Option.some.injEq, GS.player.injEq] at h
    subst h
    simpa [State.get_checkers] using h1
  · simp only [Option.some.injEq, GS.player.injEq] at h
    subst h
    simpa [State.get_checkers] using h2
  · simp at h

/-- One move by the player to move can never produce a win for the opponent:
the opponent's mask is unchanged and the parent was not terminal. -/
theorem succ_status_not_opponent {s : State} {c : Nat}
    (hst : s.get_state_status = none) (hc : c ∈ s.get_possible_columns) :
    (s.generate_successor_state c).get_state_status ≠ some (GS.player s.next.other) := by
  obtain ⟨hredwin, hyelwin, _⟩ := status_none_spec hst
  obtain ⟨k, hk, hfree, hmv, hop, _⟩ := succ_fields hc
  intro h
  have hany := status_player_any h
  rw [hop] at hany
  have hfalse : (State.win_masks.any fun m => m &&& s.get_checkers s.next.other = m) = false := by
    cases hn : s.next
    · exact hyelwin
    · exact hredwin
  rw [hany] at hfalse
  cases hfalse

/-! ### Folded maxima -/

theorem le_foldl_max (v : Nat → XInt) :
    ∀ (l : List Nat) (i : XInt), i ≤ l.foldl (fun a c => max a (v c)) i := by
  intro l
  induction l with
  | nil => intro i; exact le_refl i
  | cons c l ih =>
    intro i
    calc i ≤ max i (v c) := le_max_left _ _
      _ ≤ _ := ih (max i (v c))

theorem foldl_max_le {v : Nat → XInt} {B : XInt} :
    ∀ (l : List Nat) (i : XInt), i ≤ B → (∀ c ∈ l, v c ≤ B) →
      l.foldl (fun a c => max a (v c)) i ≤ B := by
  intro l
  induction l with
  | nil => intro i hi _; exact hi
  | cons c l ih =>
    intro i hi hall
    exact ih _ (max_le hi (hall c (by simp))) (fun c' hc' => hall c' (by simp [hc']))

theorem mem_le_foldl_max {v : Nat → XInt} :
    ∀ (l : List Nat) (i : XInt) (c : Nat), c ∈ l →
      v c ≤ l.foldl (fun a c => max a (v c)) i := by
  intro l
  induction l with
  | nil => intro i c hc; cases hc
  | cons d l ih =>
    intro i c hc
    rcases List.mem_cons.mp hc with h | h
    · subst h
      calc v c ≤ max i (v c) := le_max_right _ _
        _ ≤ _ := le_foldl_max v l _
    · exact ih _ c h

theorem foldl_max_mono {v : Nat → XInt} :
    ∀ (l : List Nat) (i i' : XInt), i ≤ i' →
      l.foldl (fun a c => max a (v c)) i ≤ l.foldl (fun a c => max a (v c)) i' := by
  intro l
  induction l with
  | nil => intro i i' h; exact h
  | cons c l ih =>
    intro i i' h
    exact ih _ _ (max_le_max h (le_refl (v c)))

theorem foldl_max_max (v : Nat → XInt) :
    ∀ (l : List Nat) (a b : XInt),
      l.foldl (fun x c => max x (v c)) (max a b) = max a (l.foldl (fun x c => max x (v c)) b) := by
  intro l
  induction l with
  | nil => intro a b; rfl
  | cons c l ih =>
    intro a b
    rw [List.foldl_cons, List.foldl_cons, max_assoc, ih]

theorem foldl_max_perm (v : Nat → XInt) {l l' : List Nat} (h : l.Perm l') :
    ∀ i : XInt, l.foldl (fun a c => max a (v c)) i = l'.foldl (fun a c => max a (v c)) i := by
  induction h with
  | nil => intro i; rfl
  | cons x _ ih => intro i; rw [List.foldl_cons, List.foldl_cons, ih]
  | swap x y l =>
    intro i
    rw [List.foldl_cons, List.foldl_cons, List.foldl_cons, List.foldl_cons,
      max_assoc, max_assoc, max_comm (v y) (v x)]
  | trans _ _ ih1 ih2 => intro i; rw [ih1, ih2]

theorem foldl_max_eq_init_or_mem (v : Nat → XInt) :
    ∀ (l : List Nat) (i : XInt),
      l.foldl (fun a c => max a (v c)) i = i ∨
        ∃ c ∈ l, l.foldl (fun a c => max a (v c)) i = v c := by
  intro l
  induction l with
  | nil => intro i; exact Or.inl rfl
  | cons c l ih =>
    intro i
    rcases ih (max i (v c)) with h | ⟨d, hd, h⟩
    · rw [List.foldl_cons, h]
      rcases max_choice i (v c) with hm | hm
    -- the head fold either keeps the initial value or picks the head
      · exact Or.inl hm
      · exact Or.inr ⟨c, by simp, hm⟩
    · exact Or.inr ⟨d, by simp [hd], by rw [List.foldl_cons, h]⟩

theorem foldl_max_base (v : Nat → XInt) (l : List Nat) (i : XInt) :
    l.foldl (fun a c => max a (v c)) i
      = max i (l.foldl (fun a c => max a (v c)) XInt.negInf) := by
  have h := foldl_max_max v l i XInt.negInf
  rw [max_eq_left (XInt.negInf_le i)] at h
  exact h

theorem xneg_min (a b : XInt) : -(min a b) = max (-a) (-b) := by
  rcases le_total a b with h | h
  · rw [min_eq_left h, max_eq_left (XInt.neg_le_neg_iff.mpr h)]
  · rw [min_eq_right h, max_eq_right (XInt.neg_le_neg_iff.mpr h)]

theorem neg_foldl_min (v : Nat → XInt) :
    ∀ (l : List Nat) (i : XInt),
      -(l.foldl (fun a c => min a (v c)) i) = l.foldl (fun a c => max a (-(v c))) (-i) := by
  intro l
  induction l with
  | nil => intro i; rfl
  | cons c l ih =>
    intro i
    rw [List.foldl_cons, List.foldl_cons, ih, xneg_min]

/-! ### The reference (pruning-free) minimax value and the fail-soft bound -/

theorem FS.refl_eq {x alpha beta : XInt} : FS x x alpha beta :=
  ⟨fun _ => le_refl x, fun _ _ => rfl, fun _ => le_refl x⟩

theorem FS_neg {r v a b : XInt} (h : FS r v a b) : FS (-r) (-v) (-b) (-a) := by
  obtain ⟨h1, h2, h3⟩ := h
  refine ⟨?_, ?_, ?_⟩
  · intro hle
    rw [show -b = -b from rfl, XInt.neg_le_neg_iff] at hle
    exact XInt.neg_le_neg_iff.mpr (h3 hle)
  · intro hlt1 hlt2
    rw [show (-b : XInt) < -r ↔ r < b from XInt.neg_lt_neg_iff] at hlt1
    rw [show (-r : XInt) < -a ↔ a < r from XInt.neg_lt_neg_iff] at hlt2
    rw [h2 hlt2 hlt1]
  · intro hle
    rw [show (-a : XInt) ≤ -r ↔ r ≤ a from XInt.neg_le_neg_iff] at hle
    exact XInt.neg_le_neg_iff.mpr (h1 hle)

/-- The fail-soft contract for the MAX-player loop of `minimax_ab`: if every
child call satisfies the contract on every valid window, the loop result
satisfies it against the folded maximum of the children's true values. -/
theorem abMaxLoop_fs (recCall : State → XInt → XInt → XInt × Option Nat)
    (val : State → XInt) (s : State) :
    ∀ (cols : List Nat) (score alpha beta : XInt) (chosen : Option Nat),
    (∀ c ∈ cols, ∀ a b : XInt, a < b →
      FS (recCall (s.generate_successor_state c) a b).1
        (val (s.generate_successor_state c)) a b) →
    score ≤ alpha → alpha < beta →
    score ≤ (abMaxLoop recCall s cols score alpha beta chosen).1 ∧
    FS (abMaxLoop recCall s cols score alpha beta chosen).1
      (cols.foldl (fun acc c => max acc (val (s.generate_successor_state c))) score)
      alpha beta := by
  intro cols
  induction cols with
  | nil =>
    intro score alpha beta chosen _ hsa hab
    rw [abMaxLoop, List.foldl_nil]
    refine ⟨le_refl _, fun _ => le_refl _, fun h1 h2 => ?_, fun h3 => ?_⟩
    · exact absurd (lt_of_lt_of_le h1 hsa) (lt_irrefl _)
    · exact absurd (lt_of_lt_of_le hab (le_trans h3 hsa)) (lt_irrefl _)
  | cons col rest ih =>
    intro score alpha beta chosen hrec hsa hab
    rw [abMaxLoop, List.foldl_cons]
    set t := s.generate_successor_state col with ht
    set cs := (recCall t alpha beta).1 with hcsdef
    set vc := val t with hvc
    have hcs : FS cs vc alpha beta := hrec col (by simp) alpha beta hab
    by_cases hgt : cs > score
    · rw [if_pos hgt]
      by_cases hge : cs ≥ beta
      · rw [if_pos hge]
        -- fail high: the child's contract makes the result a lower bound
        refine ⟨le_of_lt hgt, fun h1 => ?_, fun h1 h2 => ?_, fun _ => ?_⟩
        · exact absurd (lt_of_lt_of_le hab (le_trans hge h1)) (lt_irrefl _)
        · exact absurd (lt_of_lt_of_le h2 hge) (lt_irrefl _)
        · have hvcge : cs ≤ vc := hcs.2.2 hge
          calc cs ≤ vc := hvcge
            _ ≤ max score vc := le_max_right _ _
            _ ≤ _ := le_foldl_max _ rest _
      · rw [if_neg hge]
        have hcsb : cs < beta := lt_of_not_ge hge
        obtain ⟨ih0, ihA, ihB, ihC⟩ := ih cs cs beta (some col)
          (fun c hc => hrec c (by simp [hc])) (le_refl cs) hcsb
        set r := (abMaxLoop recCall s rest cs cs beta (some col)).1 with hr
        set F2 := rest.foldl (fun acc c => max acc (val (s.generate_successor_state c))) cs
          with hF2
        have hcr : cs ≤ r := ih0
        have hdec1 : rest.foldl (fun acc c => max acc (val (s.generate_successor_state c)))
            (max score vc)
            = max (max score vc)
                (rest.foldl (fun acc c => max acc (val (s.generate_successor_state c)))
    XInt.negInf) :=
          foldl_max_base _ rest _
        have hdec2 : F2 = max cs
            (rest.foldl (fun acc c => max acc (val (s.generate_successor_state c)))
  XInt.negInf) := by
          rw [hF2]; exact foldl_max_base _ rest _
        refine ⟨le_trans (le_of_lt hgt) hcr, ?_, ?_, ?_⟩
        · -- fail low at the outer window
          intro hra
          rcases lt_or_le alpha cs with hac | hca
          · exact absurd (lt_of_lt_of_le hac (le_trans hcr hra)) (lt_irrefl _)
          · have hvcle : vc ≤ cs := hcs.1 hca
            have hbase : max score vc ≤ cs := max_le (le_of_lt hgt) hvcle
            have hmono : rest.foldl (fun acc c => max acc (val (s.generate_successor_state c)))
                (max score vc) ≤ F2 := by
              rw [hF2]; exact foldl_max_mono rest _ _ hbase
            rcases eq_or_lt_of_le hcr with hreq | hrlt
            · exact le_trans hmono (ihA (le_of_eq hreq.symm))
            · exact le_trans hmono (le_of_eq (ihB hrlt (lt_of_le_of_lt hra hab)).symm)
        · -- exactness inside the outer window
          intro har hrb
          rcases lt_or_le alpha cs with hac | hca
          · -- the child was exact
            have hvceq : cs = vc := hcs.2.1 hac hcsb
            have hbase : max score vc = cs := by
              rw [← hvceq]; exact max_eq_right (le_of_lt hgt)
            have hfold : rest.foldl (fun acc c => max acc (val (s.generate_successor_state c)))
                (max score vc) = F2 := by
              rw [hbase, hF2]
            rcases eq_or_lt_of_le hcr with hreq | hrlt
            · have h1 : cs ≤ F2 := by rw [hF2]; exact le_foldl_max _ rest cs
              have hF2r : F2 ≤ r := ihA (le_of_eq hreq.symm)
              have h2 : r = F2 := le_antisymm (hreq ▸ h1) hF2r
              exact h2.trans hfold.symm
            · exact (ihB hrlt hrb).trans hfold.symm
          · -- the child failed low, the tail fold attains the result
            have hvcle : vc ≤ cs := hcs.1 hca
            have hrcs : cs < r := lt_of_le_of_lt hca har
            have hrR : r = max cs
                (rest.foldl (fun acc c => max acc (val (s.generate_successor_state c)))
 XInt.negInf) :=
              (ihB hrcs hrb).trans hdec2
            have hRr : rest.foldl (fun acc c => max acc (val (s.generate_successor_state c)))
                XInt.negInf = r := by
              rcases max_choice cs
                  (rest.foldl (fun acc c => max acc (val (s.generate_successor_state c)))
        XInt.negInf) with hm | hm
              · rw [hm] at hrR
                rw [hrR] at hrcs
                exact absurd hrcs (lt_irrefl _)
              · rw [hm] at hrR
                exact hrR.symm
            have hbase : max score vc ≤ cs := max_le (le_of_lt hgt) hvcle
            have hfinal : max (max score vc)
                (rest.foldl (fun acc c => max acc (val (s.generate_successor_state c)))
 XInt.negInf)
                = r := by
              rw [max_eq_right, hRr]
              rw [hRr]
              exact le_trans hbase (le_of_lt hrcs)
            rw [hdec1, hfinal]
        · -- fail high at the outer window
          intro hbr
          have hrF2 : r ≤ F2 := ihC hbr
          rw [hdec2] at hrF2
          have hrR : r ≤ rest.foldl (fun acc c => max acc (val (s.generate_successor_state c)))
              XInt.negInf := by
            rcases le_max_iff.mp hrF2 with h | h
            · exact absurd (lt_of_lt_of_le (lt_of_lt_of_le hcsb hbr) h) (lt_irrefl _)
            · exact h
          rw [hdec1]
          exact le_trans hrR (le_max_right _ _)
    · rw [if_neg hgt]
      rw [if_neg (not_le_of_lt hab)]
      have hcsle : cs ≤ score := le_of_not_lt hgt
      have hvcle : vc ≤ cs := hcs.1 (le_trans hcsle hsa)
      have hbase : max score vc = score := max_eq_left (le_trans hvcle hcsle)
      rw [hbase]
      exact ih score alpha beta chosen (fun c hc => hrec c (by simp [hc])) hsa hab

/-- The MIN-player loop is the mirror image of the MAX-player loop under
negation of scores and window reversal. -/
theorem abMinLoop_dual (recCall : State → XInt → XInt → XInt × Option Nat) (s : State) :
    ∀ (cols : List Nat) (score alpha beta : XInt) (chosen : Option Nat),
    abMinLoop recCall s cols score alpha beta chosen
      = (-(abMaxLoop (fun s' a b => (-(recCall s' (-b) (-a)).1, (none : Option Nat))) s cols
            (-score) (-beta) (-alpha) chosen).1,
         (abMaxLoop (fun s' a b => (-(recCall s' (-b) (-a)).1, (none : Option Nat))) s cols
            (-score) (-beta) (-alpha) chosen).2) := by
  intro cols
  induction cols with
  | nil =>
    intro score alpha beta chosen
    rw [abMinLoop, abMaxLoop]
    simp
  | cons col rest ih =>
    intro score alpha beta chosen
    simp only [abMinLoop, abMaxLoop, XInt.neg_neg]
    set cs := (recCall (s.generate_successor_state col) alpha beta).1 with hcsdef
    by_cases hlt : cs < score
    · rw [if_pos hlt, if_pos (show -cs > -score from XInt.neg_lt_neg_iff.mpr hlt)]
      by_cases hge : alpha ≥ cs
      · rw [if_pos hge, if_pos (show -cs ≥ -alpha from XInt.neg_le_neg_iff.mpr hge)]
        simp
      · rw [if_neg hge,
          if_neg (show ¬(-cs ≥ -alpha) from fun h => hge (XInt.neg_le_neg_iff.mp h))]
        exact ih cs alpha cs (some col)
    · rw [if_neg hlt,
        if_neg (show ¬(-cs > -score) from fun h => hlt (XInt.neg_lt_neg_iff.mp h))]
      by_cases hab : alpha ≥ beta
      · rw [if_pos hab, if_pos (show -beta ≥ -alpha from XInt.neg_le_neg_iff.mpr hab)]
        simp
      · rw [if_neg hab,
          if_neg (show ¬(-beta ≥ -alpha) from fun h => hab (XInt.neg_le_neg_iff.mp h))]
        exact ih score alpha beta chosen

theorem status_none_of_not_terminal {s : State} (h : ¬ is_terminal_node s = true) :
    s.get_state_status = none := by
  cases hst : s.get_state_status with
  | none => rfl
  | some v =>
    exfalso
    apply h
    rw [is_terminal_node, hst]
    rfl

theorem abMaxLoop_fin (recCall : State → XInt → XInt → XInt × Option Nat) (s : State) :
    ∀ (cols : List Nat) (score alpha beta : XInt) (chosen : Option Nat),
    (∀ c ∈ cols, ∀ a b : XInt, ∃ n, (recCall (s.generate_successor_state c) a b).1 = .fin n) →
    score ≠ .posInf →
    ((∃ m, score = .fin m) ∨ cols ≠ []) →
    ∃ n, (abMaxLoop recCall s cols score alpha beta chosen).1 = .fin n := by
  intro cols
  induction cols with
  | nil =>
    intro score alpha beta chosen _ _ hsc
    rcases hsc with ⟨m, hm⟩ | hne
    · rw [abMaxLoop]
      exact ⟨m, hm⟩
    · exact absurd rfl hne
  | cons col rest ih =>
    intro score alpha beta chosen hrec hnp hsc
    obtain ⟨k, hk⟩ := hrec col (by simp) alpha beta
    rw [abMaxLoop]
    set cs := (recCall (s.generate_successor_state col) alpha beta).1 with hcsdef
    by_cases hgt : cs > score
    · rw [if_pos hgt]
      by_cases hge : cs ≥ beta
      · rw [if_pos hge]
        exact ⟨k, hk⟩
      · rw [if_neg hge]
        exact ih cs cs beta (some col) (fun c hc a b => hrec c (by simp [hc]) a b)
          (by rw [hk]; simp) (Or.inl ⟨k, hk⟩)
    · rw [if_neg hgt]
      have hsfin : ∃ m, score = XInt.fin m := by
        rcases hscore : score with _ | m | _
        · exfalso
          have hle : cs ≤ XInt.negInf := by rw [← hscore]; exact le_of_not_lt hgt
          rw [hk] at hle
          simp at hle
        · exact ⟨m, rfl⟩
        · exact absurd hscore hnp
      by_cases hab2 : alpha ≥ beta
      · rw [if_pos hab2]
        exact hsfin
      · rw [if_neg hab2]
        exact ih score alpha beta chosen (fun c hc a b => hrec c (by simp [hc]) a b) hnp
          (Or.inl hsfin)

theorem sorted_cols_ne_nil {mp : Player} {s : State}
    (hne : s.get_possible_columns ≠ []) :
    s.get_possible_columns.mergeSort (sortLe mp s) ≠ [] := by
  intro h
  have hperm := sorted_cols_perm mp s
  rw [h] at hperm
  exact hne (List.Perm.eq_nil hperm.symm)

theorem minimax_ab_fin (mp : Player) (md : XInt) :
    ∀ (fuel : Nat) (s : State) (player : Player) (alpha beta : XInt) (depth : Nat),
    WFState s = true → freeCells s < fuel →
    ∃ n, (minimax_ab mp md fuel s player alpha beta depth).1 = .fin n := by
  intro fuel
  induction fuel with
  | zero =>
    intro s _ _ _ _ _ hf
    omega
  | succ f ihf =>
    intro s player alpha beta depth hw hf
    rw [minimax_ab]
    by_cases hterm : is_terminal_node s = true ∨ XInt.fin depth = md
    · rw [if_pos hterm]
      exact ⟨node_evaluation mp s, rfl⟩
    · rw [if_neg hterm]
      have hstatus : s.get_state_status = none :=
        status_none_of_not_terminal (fun h => hterm (Or.inl h))
      have hne := possible_ne_nil_of_status hw hstatus
      have hrec : ∀ c ∈ s.get_possible_columns.mergeSort (sortLe mp s),
          WFState (s.generate_successor_state c) = true ∧
            freeCells (s.generate_successor_state c) < f := by
        intro c hc
        have hcp := sorted_cols_mem.mp hc
        exact ⟨WFState_succ hw hcp, by have := freeCells_succ_lt hcp; omega⟩
      by_cases hp : player = mp
      · rw [if_pos hp]
        exact abMaxLoop_fin _ s _ _ alpha beta none
          (fun c hc a b => ihf _ _ a b _ (hrec c hc).1 (hrec c hc).2)
          (by simp) (Or.inr (sorted_cols_ne_nil hne))
      · rw [if_neg hp]
        rw [abMinLoop_dual]
        obtain ⟨n, hn⟩ := abMaxLoop_fin
          (fun s' a b => (-(minimax_ab mp md f s' mp (-b) (-a) (depth + 1)).1, (none : Option Nat)))
          s (s.get_possible_columns.mergeSort (sortLe mp s))
          (-XInt.posInf) (-beta) (-alpha) none
          (fun c hc a b => by
            obtain ⟨m, hm⟩ := ihf _ mp (-b) (-a) (depth + 1) (hrec c hc).1 (hrec c hc).2
            exact ⟨-m, by simp [hm]⟩)
          (by simp) (Or.inr (sorted_cols_ne_nil hne))
        exact ⟨-n, by rw [hn]; rfl⟩

/-- Fail-soft correctness of `minimax_ab`: on a well-formed position with
enough fuel and a valid window, the search result brackets the pruning-free
minimax value, and is exact inside the window. -/
theorem minimax_ab_fs (mp : Player) (md : XInt) :
    ∀ (fuel : Nat) (s : State) (player : Player) (alpha beta : XInt) (depth : Nat),
    WFState s = true → freeCells s < fuel → alpha < beta →
    FS (minimax_ab mp md fuel s player alpha beta depth).1
      (minimaxVal mp md fuel s player depth) alpha beta := by
  intro fuel
  induction fuel with
  | zero =>
    intro s _ _ _ _ _ hf
    omega
  | succ f ihf =>
    intro s player alpha beta depth hw hf hab
    rw [minimax_ab, minimaxVal]
    by_cases hterm : is_terminal_node s = true ∨ XInt.fin depth = md
    · rw [if_pos hterm, if_pos hterm]
      exact FS.refl_eq
    · rw [if_neg hterm, if_neg hterm]
      have hstatus := status_none_of_not_terminal (fun h => hterm (Or.inl h))
      have hne := possible_ne_nil_of_status hw hstatus
      have hmem : ∀ c ∈ s.get_possible_columns.mergeSort (sortLe mp s),
          WFState (s.generate_successor_state c) = true ∧
            freeCells (s.generate_successor_state c) < f := by
        intro c hc
        have hcp := sorted_cols_mem.mp hc
        exact ⟨WFState_succ hw hcp, by have := freeCells_succ_lt hcp; omega⟩
      by_cases hp : player = mp
      · rw [if_pos hp, if_pos hp]
        have hloop := abMaxLoop_fs
          (fun s' a b => minimax_ab mp md f s' mp.other a b (depth + 1))
          (fun s' => minimaxVal mp md f s' mp.other (depth + 1)) s
          (s.get_possible_columns.mergeSort (sortLe mp s))
          XInt.negInf alpha beta none
          (fun c hc a b hab2 => ihf _ _ a b _ (hmem c hc).1 (hmem c hc).2 hab2)
          (XInt.negInf_le alpha) hab
        have hfold : (s.get_possible_columns.mergeSort (sortLe mp s)).foldl
            (fun acc c =>
              max acc (minimaxVal mp md f (s.generate_successor_state c) mp.other (depth + 1)))
            XInt.negInf
            = s.get_possible_columns.foldl
            (fun acc c =>
              max acc (minimaxVal mp md f (s.generate_successor_state c) mp.other (depth + 1)))
            XInt.negInf :=
          foldl_max_perm _ (sorted_cols_perm mp s) XInt.negInf
        rw [← hfold]
        exact hloop.2
      · rw [if_neg hp, if_neg hp]
        rw [abMinLoop_dual]
        have hloopd := abMaxLoop_fs
          (fun s' a b =>
            (-(minimax_ab mp md f s' mp (-b) (-a) (depth + 1)).1, (none : Option Nat)))
          (fun s' => -(minimaxVal mp md f s' mp (depth + 1))) s
          (s.get_possible_columns.mergeSort (sortLe mp s))
          (-XInt.posInf) (-beta) (-alpha) none
          (fun c hc a b hab2 => by
            have h := ihf _ mp (-b) (-a) (depth + 1) (hmem c hc).1 (hmem c hc).2
              (XInt.neg_lt_neg_iff.mpr hab2)
            have h2 := FS_neg h
            rw [XInt.neg_neg, XInt.neg_neg] at h2
            exact h2)
          (by simp)
          (XInt.neg_lt_neg_iff.mpr hab)
        have h3 := FS_neg hloopd.2
        rw [XInt.neg_neg, XInt.neg_neg] at h3
        have hFeq : -((s.get_possible_columns.mergeSort (sortLe mp s)).foldl
            (fun acc c =>
              max acc (-(minimaxVal mp md f (s.generate_successor_state c) mp (depth + 1))))
            (-XInt.posInf))
            = s.get_possible_columns.foldl
            (fun acc c =>
              min acc (minimaxVal mp md f (s.generate_successor_state c) mp (depth + 1)))
            XInt.posInf := by
          rw [foldl_max_perm _ (sorted_cols_perm mp s)]
          rw [show (-XInt.posInf) = -XInt.posInf from rfl]
          rw [← neg_foldl_min
            (fun c => minimaxVal mp md f (s.generate_successor_state c) mp (depth + 1))
            s.get_possible_columns XInt.posInf]
          rw [XInt.neg_neg]
        rw [hFeq] at h3
        exact h3

theorem xmax_fin {a b : XInt} (ha : ∃ m, a = XInt.fin m) (hb : ∃ k, b = XInt.fin k) :
    ∃ j, max a b = XInt.fin j := by
  rcases le_total a b with h | h
  · rw [max_eq_right h]; exact hb
  · rw [max_eq_left h]; exact ha

theorem xmax_fin_of_left_ne_posInf {a b : XInt} (ha : a ≠ XInt.posInf)
    (hb : ∃ k, b = XInt.fin k) : ∃ j, max a b = XInt.fin j := by
  obtain ⟨k, rfl⟩ := hb
  cases a with
  | negInf => exact ⟨k, max_eq_right (XInt.negInf_le _)⟩
  | fin m => exact xmax_fin ⟨m, rfl⟩ ⟨k, rfl⟩
  | posInf => exact absurd rfl ha

theorem nsLoop_fin (recCall : State → XInt → XInt → XInt × Option Nat) (s : State)
    (firstCol : Nat) :
    ∀ (cols : List Nat) (score alpha beta : XInt) (chosen : Option Nat),
    (∀ c ∈ cols, ∀ a b : XInt, ∃ n, (recCall (s.generate_successor_state c) a b).1 = .fin n) →
    score ≠ .posInf →
    ((∃ m, score = .fin m) ∨ cols ≠ []) →
    ∃ n, (nsLoop recCall s firstCol cols score alpha beta chosen).1 = .fin n := by
  intro cols
  induction cols with
  | nil =>
    intro score alpha beta chosen _ _ hsc
    rcases hsc with ⟨m, hm⟩ | hne
    · rw [nsLoop]
      exact ⟨m, hm⟩
    · exact absurd rfl hne
  | cons col rest ih =>
    intro score alpha beta chosen hrec hnp hsc
    rw [nsLoop]
    by_cases hcf : col = firstCol
    · rw [if_pos hcf]
      obtain ⟨k, hk⟩ := hrec col (by simp) (-beta) (-alpha)
      have hcs : -(recCall (s.generate_successor_state col) (-beta) (-alpha)).1
          = XInt.fin (-k) := by rw [hk]; rfl
      have hs' : ∃ m, max score (-(recCall (s.generate_successor_state col) (-beta) (-alpha)).1)
          = XInt.fin m := by
        rcases hscore : score with _ | m | _
        · exact ⟨-k, by rw [hcs]; exact max_eq_right (XInt.negInf_le _)⟩
        · rw [hcs]; exact xmax_fin ⟨m, rfl⟩ ⟨-k, rfl⟩
        · exact absurd hscore hnp
      obtain ⟨m, hm⟩ := hs'
      by_cases hbrk : max alpha (max score
          (-(recCall (s.generate_successor_state col) (-beta) (-alpha)).1)) ≥ beta
      · rw [if_pos hbrk]
        exact ⟨m, hm⟩
      · rw [if_neg hbrk]
        exact ih _ _ beta (some col) (fun c hc a b => hrec c (by simp [hc]) a b)
          (by rw [hm]; simp) (Or.inl ⟨m, hm⟩)
    · rw [if_neg hcf]
      by_cases hrs : alpha < -(recCall (s.generate_successor_state col)
          ((-alpha).sub1) (-alpha)).1 ∧
          -(recCall (s.generate_successor_state col) ((-alpha).sub1) (-alpha)).1 < beta
      · rw [if_pos hrs]
        obtain ⟨k, hk⟩ := hrec col (by simp) (-beta) (-alpha)
        have hcs : -(recCall (s.generate_successor_state col) (-beta) (-alpha)).1
            = XInt.fin (-k) := by rw [hk]; rfl
        have hs' : ∃ m, max score
            (-(recCall (s.generate_successor_state col) (-beta) (-alpha)).1)
            = XInt.fin m := by
          rcases hscore : score with _ | m | _
          · exact ⟨-k, by rw [hcs]; exact max_eq_right (XInt.negInf_le _)⟩
          · rw [hcs]; exact xmax_fin ⟨m, rfl⟩ ⟨-k, rfl⟩
          · exact absurd hscore hnp
        obtain ⟨m, hm⟩ := hs'
        by_cases hbrk : max alpha (max score
            (-(recCall (s.generate_successor_state col) (-beta) (-alpha)).1)) ≥ beta
        · rw [if_pos hbrk]
          exact ⟨m, hm⟩
        · rw [if_neg hbrk]
          exact ih _ _ beta (some col) (fun c hc a b => hrec c (by simp [hc]) a b)
            (by rw [hm]; simp) (Or.inl ⟨m, hm⟩)
      · rw [if_neg hrs]
        obtain ⟨k, hk⟩ := hrec col (by simp) ((-alpha).sub1) (-alpha)
        have hcs : -(recCall (s.generate_successor_state col) ((-alpha).sub1) (-alpha)).1
            = XInt.fin (-k) := by rw [hk]; rfl
        have hs' : ∃ m, max score
            (-(recCall (s.generate_successor_state col) ((-alpha).sub1) (-alpha)).1)
            = XInt.fin m := by
          rcases hscore : score with _ | m | _
          · exact ⟨-k, by rw [hcs]; exact max_eq_right (XInt.negInf_le _)⟩
          · rw [hcs]; exact xmax_fin ⟨m, rfl⟩ ⟨-k, rfl⟩
          · exact absurd hscore hnp
        obtain ⟨m, hm⟩ := hs'
        by_cases hbrk : max alpha (max score
            (-(recCall (s.generate_successor_state col) ((-alpha).sub1) (-alpha)).1)) ≥ beta
        · rw [if_pos hbrk]
          exact ⟨m, hm⟩
        · rw [if_neg hbrk]
          exact ih _ _ beta chosen (fun c hc a b => hrec c (by simp [hc]) a b)
            (by rw [hm]; simp) (Or.inl ⟨m, hm⟩)

/-- The fail-soft contract for the null-window part of the `negascout` loop:
on the columns after the first, probe results and re-searches combine to
satisfy the contract against the folded maximum of the children's
(parent-perspective) true values. -/
theorem nsLoop_fs (recCall : State → XInt → XInt → XInt × Option Nat)
    (val : State → XInt) (s : State) (firstCol : Nat) :
    ∀ (cols : List Nat) (score alpha beta : XInt) (chosen : Option Nat),
    firstCol ∉ cols →
    (∀ c ∈ cols, ∀ a b : XInt, a < b →
      FS (-(recCall (s.generate_successor_state c) a b).1)
        (val (s.generate_successor_state c)) (-b) (-a)) →
    (∀ c ∈ cols, ∀ a b : XInt, ∃ n, (recCall (s.generate_successor_state c) a b).1 = .fin n) →
    (∃ m, score = XInt.fin m) → (∃ m, alpha = XInt.fin m) →
    score ≤ alpha → alpha < beta →
    score ≤ (nsLoop recCall s firstCol cols score alpha beta chosen).1 ∧
    FS (nsLoop recCall s firstCol cols score alpha beta chosen).1
      (cols.foldl (fun acc c => max acc (val (s.generate_successor_state c))) score)
      alpha beta := by
  intro cols
  induction cols with
  | nil =>
    intro score alpha beta chosen _ _ _ _ _ hsa hab
    rw [nsLoop, List.foldl_nil]
    refine ⟨le_refl _, fun _ => le_refl _, fun h1 h2 => ?_, fun h3 => ?_⟩
    · exact absurd (lt_of_lt_of_le h1 hsa) (lt_irrefl _)
    · exact absurd (lt_of_lt_of_le hab (le_trans h3 hsa)) (lt_irrefl _)
  | cons col rest ih =>
    intro score alpha beta chosen hnm hrec hfin hsfin hafin hsa hab
    obtain ⟨na, rfl⟩ := hafin
    have hcolne : ¬(col = firstCol) := fun h => hnm (by simp [h])
    rw [nsLoop, if_neg hcolne, List.foldl_cons]
    set t := s.generate_successor_state col with ht
    set vc := val t with hvc
    set probe := -(recCall t ((-XInt.fin na).sub1) (-XInt.fin na)).1 with hprobedef
    have hprobeFin : ∃ k, probe = XInt.fin k := by
      obtain ⟨k, hk⟩ := hfin col (by simp) ((-XInt.fin na).sub1) (-XInt.fin na)
      refine ⟨-k, ?_⟩
      rw [hprobedef, hk]
      rfl
    have hwin : ((-XInt.fin na).sub1) < (-XInt.fin na) := by
      show XInt.fin (-na - 1) < XInt.fin (-na)
      rw [XInt.fin_lt_fin]
      omega
    have hFSprobe : FS probe vc (XInt.fin na) (XInt.fin (na + 1)) := by
      have h := hrec col (by simp) ((-XInt.fin na).sub1) (-XInt.fin na) hwin
      have e1 : -(-XInt.fin na) = XInt.fin na := by rw [XInt.neg_neg]
      have e2 : -((-XInt.fin na).sub1) = XInt.fin (na + 1) := by
        show -(XInt.fin (-na - 1)) = XInt.fin (na + 1)
        rw [XInt.neg_fin]
        congr 1
        omega
      rw [e1, e2] at h
      exact h
    have hprobe_high : XInt.fin na < probe → probe ≤ vc := by
      intro hgt
      obtain ⟨k, hk⟩ := hprobeFin
      apply hFSprobe.2.2
      rw [hk] at hgt ⊢
      rw [XInt.fin_le_fin]
      have := XInt.fin_lt_fin.mp hgt
      omega
    by_cases hrs : XInt.fin na < probe ∧ probe < beta
    · rw [if_pos hrs]
      set cs := -(recCall t (-beta) (-XInt.fin na)).1 with hcsdef
      have hcsFin : ∃ k, cs = XInt.fin k := by
        obtain ⟨k, hk⟩ := hfin col (by simp) (-beta) (-XInt.fin na)
        refine ⟨-k, ?_⟩
        rw [hcsdef, hk]
        rfl
      have hFScs : FS cs vc (XInt.fin na) beta := by
        have h := hrec col (by simp) (-beta) (-XInt.fin na) (XInt.neg_lt_neg_iff.mpr hab)
        rw [XInt.neg_neg, XInt.neg_neg] at h
        exact h
      have hvcprobe : probe ≤ vc := hprobe_high hrs.1
      have hcsgt : XInt.fin na < cs := by
        by_contra hle
        push_neg at hle
        have hvccs := hFScs.1 hle
        exact absurd (lt_of_lt_of_le hrs.1 (le_trans hvcprobe (le_trans hvccs hle)))
          (lt_irrefl _)
      have hscoreeq : max score cs = cs :=
        max_eq_right (le_trans hsa (le_of_lt hcsgt))
      have halphaeq : max (XInt.fin na) (max score cs) = cs := by
        rw [hscoreeq]
        exact max_eq_right (le_of_lt hcsgt)
      by_cases hbrk : max (XInt.fin na) (max score cs) ≥ beta
      · rw [if_pos hbrk]
        have hcsbeta : beta ≤ cs := by rw [halphaeq] at hbrk; exact hbrk
        refine ⟨?_, fun h4 => ?_, fun h4 h5 => ?_, fun _ => ?_⟩
        · rw [hscoreeq]; exact le_trans hsa (le_of_lt hcsgt)
        · rw [hscoreeq] at h4
          exact absurd (lt_of_lt_of_le hcsgt h4) (lt_irrefl _)
        · rw [hscoreeq] at h5
          exact absurd (lt_of_lt_of_le h5 hcsbeta) (lt_irrefl _)
        · rw [hscoreeq]
          calc cs ≤ vc := hFScs.2.2 hcsbeta
            _ ≤ max score vc := le_max_right _ _
            _ ≤ _ := le_foldl_max _ rest _
      · rw [if_neg hbrk]
        have halnew : max (XInt.fin na) (max score cs) < beta := lt_of_not_ge hbrk
        have hcsb : cs < beta := by rw [halphaeq] at halnew; exact halnew
        have hvceq : cs = vc := hFScs.2.1 hcsgt hcsb
        have halphaeq2 : max (XInt.fin na) (max score cs) = max score cs := by
          rw [hscoreeq]
          exact max_eq_right (le_of_lt hcsgt)
        rw [halphaeq2]
        obtain ⟨IH0, IHA, IHB, IHC⟩ := ih (max score cs) (max score cs) beta (some col)
          (fun h => hnm (by simp [h]))
          (fun c hc a b h => hrec c (by simp [hc]) a b h)
          (fun c hc a b => hfin c (by simp [hc]) a b)
          (by rw [hscoreeq]; exact hcsFin)
          (by rw [hscoreeq]; exact hcsFin)
          (le_refl _)
          (by rw [hscoreeq]; exact hcsb)
        have hbase : max score vc = max score cs := by rw [← hvceq]
        rw [hbase]
        refine ⟨?_, fun h4 => ?_, fun h4 h5 => ?_, fun h4 => ?_⟩
        · exact le_trans (le_max_left _ _) IH0
        · exfalso
          have hle2 : max score cs ≤ XInt.fin na := le_trans IH0 h4
          rw [hscoreeq] at hle2
          exact absurd (lt_of_lt_of_le hcsgt hle2) (lt_irrefl _)
        · rcases eq_or_lt_of_le IH0 with hreq | hrlt
          · have hF2r := IHA (le_of_eq hreq.symm)
            have hrF2 : (nsLoop recCall s firstCol rest (max score cs) (max score cs)
                beta (some col)).1
                ≤ rest.foldl (fun acc c => max acc (val (s.generate_successor_state c)))
                  (max score cs) := by
              rw [← hreq]
              exact le_foldl_max _ rest _
            exact le_antisymm hrF2 hF2r
          · exact IHB hrlt h5
        · exact IHC h4
    · rw [if_neg hrs]
      rcases lt_or_le (XInt.fin na) probe with hgt | hle
      · -- the probe failed high at or above beta: break with a lower bound
        have hbp : beta ≤ probe := by
          rcases le_or_lt beta probe with h | h
          · exact h
          · exact absurd ⟨hgt, h⟩ hrs
        have hscoreeq : max score probe = probe :=
          max_eq_right (le_trans hsa (le_of_lt hgt))
        have halphaeq : max (XInt.fin na) (max score probe) = probe := by
          rw [hscoreeq]
          exact max_eq_right (le_of_lt hgt)
        have hbrk : max (XInt.fin na) (max score probe) ≥ beta := by
          rw [halphaeq]; exact hbp
        rw [if_pos hbrk]
        have hpv : probe ≤ vc := hprobe_high hgt
        refine ⟨?_, fun h4 => ?_, fun h4 h5 => ?_, fun _ => ?_⟩
        · rw [hscoreeq]; exact le_trans hsa (le_of_lt hgt)
        · rw [hscoreeq] at h4
          exact absurd (lt_of_lt_of_le hgt h4) (lt_irrefl _)
        · rw [hscoreeq] at h5
          exact absurd (lt_of_lt_of_le h5 hbp) (lt_irrefl _)
        · rw [hscoreeq]
          calc probe ≤ vc := hpv
            _ ≤ max score vc := le_max_right _ _
            _ ≤ _ := le_foldl_max _ rest _
      · -- the probe failed low: keep it and move on
        have hvle : vc ≤ probe := hFSprobe.1 hle
        have hscorele : max score probe ≤ XInt.fin na := max_le hsa hle
        have halphaeq : max (XInt.fin na) (max score probe) = XInt.fin na :=
          max_eq_left hscorele
        have hnbrk : ¬ max (XInt.fin na) (max score probe) ≥ beta := by
          rw [halphaeq]; exact not_le_of_lt hab
        rw [if_neg hnbrk]
        rw [halphaeq]
        obtain ⟨IH0, IHA, IHB, IHC⟩ := ih (max score probe) (XInt.fin na) beta chosen
          (fun h => hnm (by simp [h]))
          (fun c hc a b h => hrec c (by simp [hc]) a b h)
          (fun c hc a b => hfin c (by simp [hc]) a b)
          (xmax_fin hsfin hprobeFin)
          ⟨na, rfl⟩
          hscorele
          hab
        set r := (nsLoop recCall s firstCol rest (max score probe) (XInt.fin na)
          beta chosen).1 with hrdef
        set R := rest.foldl (fun acc c => max acc (val (s.generate_successor_state c)))
          XInt.negInf with hRdef
        have hdec1 : rest.foldl (fun acc c => max acc (val (s.generate_successor_state c)))
            (max score vc) = max (max score vc) R :=
          foldl_max_base _ rest _
        have hdec2 : rest.foldl (fun acc c => max acc (val (s.generate_successor_state c)))
            (max score probe) = max (max score probe) R :=
          foldl_max_base _ rest _
        have hbasele : max score vc ≤ max score probe :=
          max_le_max (le_refl score) hvle
        refine ⟨?_, fun h4 => ?_, fun h4 h5 => ?_, fun h4 => ?_⟩
        · exact le_trans (le_max_left _ _) IH0
        · have hF2r := IHA h4
          exact le_trans (foldl_max_mono rest _ _ hbasele) hF2r
        · have hrF2 := IHB h4 h5
          rw [hdec2] at hrF2
          have hRr : R = r := by
            rcases max_choice (max score probe) R with hm | hm
            · exfalso
              rw [hm] at hrF2
              have hle2 : r ≤ XInt.fin na := by rw [hrF2]; exact hscorele
              exact absurd (lt_of_lt_of_le h4 hle2) (lt_irrefl _)
            · rw [hm] at hrF2
              exact hrF2.symm
          rw [hdec1]
          rw [max_eq_right]
          · exact hRr.symm
          · calc max score vc ≤ max score probe := hbasele
              _ ≤ XInt.fin na := hscorele
              _ ≤ r := le_of_lt h4
              _ = R := hRr.symm
        · have hrF2 := IHC h4
          rw [hdec2] at hrF2
          have hrR : r ≤ R := by
            rcases le_max_iff.mp hrF2 with h | h
            · exfalso
              have hle2 : r ≤ XInt.fin na := le_trans h hscorele
              exact absurd (lt_of_lt_of_le (lt_of_lt_of_le hab h4) hle2) (lt_irrefl _)
            · exact h
          rw [hdec1]
          exact le_trans hrR (le_max_right _ _)

/-- The fail-soft contract for the whole `negascout` column loop: full-window
search of the first ordered column followed by null-window probes. -/
theorem nsLoop_full_fs (recCall : State → XInt → XInt → XInt × Option Nat)
    (val : State → XInt) (s : State) (cols : List Nat) (hnd : cols.Nodup)
    (alpha beta : XInt)
    (hrec : ∀ c ∈ cols, ∀ a b : XInt, a < b →
      FS (-(recCall (s.generate_successor_state c) a b).1)
        (val (s.generate_successor_state c)) (-b) (-a))
    (hfin : ∀ c ∈ cols, ∀ a b : XInt,
      ∃ n, (recCall (s.generate_successor_state c) a b).1 = .fin n)
    (hab : alpha < beta) :
    FS (nsLoop recCall s (cols.headD 0) cols XInt.negInf alpha beta none).1
      (cols.foldl (fun acc c => max acc (val (s.generate_successor_state c))) XInt.negInf)
      alpha beta := by
  cases cols with
  | nil =>
    rw [nsLoop, List.foldl_nil]
    exact FS.refl_eq
  | cons h t =>
    rw [List.headD_cons, nsLoop, if_pos rfl, List.foldl_cons]
    dsimp only
    set t1 := s.generate_successor_state h with ht1
    set cs := -(recCall t1 (-beta) (-alpha)).1 with hcsdef
    set vch := val t1 with hvch
    have hcsFin : ∃ k, cs = XInt.fin k := by
      obtain ⟨k, hk⟩ := hfin h (by simp) (-beta) (-alpha)
      refine ⟨-k, ?_⟩
      rw [hcsdef, hk]
      rfl
    have hFScs : FS cs vch alpha beta := by
      have hh := hrec h (by simp) (-beta) (-alpha) (XInt.neg_lt_neg_iff.mpr hab)
      rw [XInt.neg_neg, XInt.neg_neg] at hh
      exact hh
    have hscoreeq : max XInt.negInf cs = cs := max_eq_right (XInt.negInf_le cs)
    rw [hscoreeq]
    have hb2 : max XInt.negInf vch = vch := max_eq_right (XInt.negInf_le vch)
    rw [hb2]
    by_cases hbrk : max alpha cs ≥ beta
    · rw [if_pos hbrk]
      have hcsbeta : beta ≤ cs := by
        rcases max_choice alpha cs with hm | hm
        · rw [hm] at hbrk
          exact absurd hbrk (not_le_of_lt hab)
        · rw [hm] at hbrk
          exact hbrk
      refine ⟨fun h4 => ?_, fun h4 h5 => ?_, fun _ => ?_⟩
      · exact absurd (lt_of_lt_of_le (lt_of_lt_of_le hab hcsbeta) h4) (lt_irrefl _)
      · exact absurd (lt_of_lt_of_le h5 hcsbeta) (lt_irrefl _)
      · calc cs ≤ vch := hFScs.2.2 hcsbeta
          _ ≤ _ := le_foldl_max _ t _
    · rw [if_neg hbrk]
      have halnew : max alpha cs < beta := lt_of_not_ge hbrk
      have hcsb : cs < beta := lt_of_le_of_lt (le_max_right alpha cs) halnew
      have halphafin : ∃ m, max alpha cs = XInt.fin m :=
        xmax_fin_of_left_ne_posInf
          (fun hp => absurd (hp ▸ hab) (XInt.not_posInf_lt beta)) hcsFin
      have hnotmem : h ∉ t := (List.nodup_cons.mp hnd).1
      obtain ⟨IH0, IHA, IHB, IHC⟩ := nsLoop_fs recCall val s h t cs (max alpha cs) beta
        (some h) hnotmem
        (fun c hc a b hw => hrec c (by simp [hc]) a b hw)
        (fun c hc a b => hfin c (by simp [hc]) a b)
        hcsFin halphafin (le_max_right _ _) halnew
      rcases lt_or_le alpha cs with hac | hca
      · -- the first column landed inside the window: its value is exact
        have hvceq : cs = vch := hFScs.2.1 hac hcsb
        have halphaeq : max alpha cs = cs := max_eq_right (le_of_lt hac)
        have hfoldeq : t.foldl (fun acc c => max acc (val (s.generate_successor_state c))) vch
            = t.foldl (fun acc c => max acc (val (s.generate_successor_state c))) cs := by
          rw [← hvceq]
        rw [hfoldeq]
        refine ⟨fun h4 => ?_, fun h4 h5 => ?_, fun h4 => ?_⟩
        · exact absurd (lt_of_lt_of_le hac (le_trans IH0 h4)) (lt_irrefl _)
        · rcases eq_or_lt_of_le IH0 with hreq | hrlt
          · have hF2r := IHA (le_trans (le_of_eq hreq.symm) (le_max_right alpha cs))
            have hrF2 : (nsLoop recCall s h t cs (max alpha cs) beta (some h)).1
                ≤ t.foldl (fun acc c => max acc (val (s.generate_successor_state c))) cs := by
              rw [← hreq]
              exact le_foldl_max _ t _
            exact le_antisymm hrF2 hF2r
          · exact IHB (lt_of_le_of_lt (le_of_eq halphaeq) hrlt) h5
        · exact IHC h4
      · -- the first column failed low
        have hvcle : vch ≤ cs := hFScs.1 hca
        have halphaeq : max alpha cs = alpha := max_eq_left hca
        rw [halphaeq] at IH0 IHA IHB IHC ⊢
        set r := (nsLoop recCall s h t cs alpha beta (some h)).1 with hrdef
        set R := t.foldl (fun acc c => max acc (val (s.generate_successor_state c)))
          XInt.negInf with hRdef
        have hdec1 : t.foldl (fun acc c => max acc (val (s.generate_successor_state c))) vch
            = max vch R := foldl_max_base _ t _
        have hdec2 : t.foldl (fun acc c => max acc (val (s.generate_successor_state c))) cs
            = max cs R := foldl_max_base _ t _
        refine ⟨fun h4 => ?_, fun h4 h5 => ?_, fun h4 => ?_⟩
        · exact le_trans (foldl_max_mono t _ _ hvcle) (IHA h4)
        · have hrF2 := IHB h4 h5
          rw [hdec2] at hrF2
          have hRr : R = r := by
            rcases max_choice cs R with hm | hm
            · exfalso
              rw [hm] at hrF2
              have hle2 : r ≤ alpha := by rw [hrF2]; exact hca
              exact absurd (lt_of_lt_of_le h4 hle2) (lt_irrefl _)
            · rw [hm] at hrF2
              exact hrF2.symm
          rw [hdec1]
          rw [max_eq_right]
          · exact hRr.symm
          · calc vch ≤ cs := hvcle
              _ ≤ alpha := hca
              _ ≤ r := le_of_lt h4
              _ = R := hRr.symm
        · have hrF2 := IHC h4
          rw [hdec2] at hrF2
          have hrR : r ≤ R := by
            rcases le_max_iff.mp hrF2 with h5 | h5
            · exfalso
              have hle2 : r ≤ alpha := le_trans h5 hca
              exact absurd (lt_of_lt_of_le (lt_of_lt_of_le hab h4) hle2) (lt_irrefl _)
            · exact h5
          rw [hdec1]
          exact le_trans hrR (le_max_right _ _)

theorem negascout_fin (mp : Player) (md : XInt) :
    ∀ (fuel : Nat) (s : State) (player : Player) (alpha beta : XInt) (depth : Nat),
    WFState s = true → freeCells s < fuel →
    ∃ n, (negascout mp md fuel s player alpha beta depth).1 = .fin n := by
  intro fuel
  induction fuel with
  | zero =>
    intro s _ _ _ _ _ hf
    omega
  | succ f ihf =>
    intro s player alpha beta depth hw hf
    rw [negascout]
    by_cases hterm : is_terminal_node s = true ∨ XInt.fin depth = md
    · rw [if_pos hterm]
      exact ⟨node_evaluation mp s * (if player = mp.other then -1 else 1), rfl⟩
    · rw [if_neg hterm]
      have hstatus : s.get_state_status = none :=
        status_none_of_not_terminal (fun h => hterm (Or.inl h))
      have hne := possible_ne_nil_of_status hw hstatus
      have hrec : ∀ c ∈ s.get_possible_columns.mergeSort (sortLe mp s),
          WFState (s.generate_successor_state c) = true ∧
            freeCells (s.generate_successor_state c) < f := by
        intro c hc
        have hcp := sorted_cols_mem.mp hc
        exact ⟨WFState_succ hw hcp, by have := freeCells_succ_lt hcp; omega⟩
      exact nsLoop_fin _ s _ _ XInt.negInf alpha beta none
        (fun c hc a b => ihf _ _ a b _ (hrec c hc).1 (hrec c hc).2)
        (by simp) (Or.inr (sorted_cols_ne_nil hne))

/-- Fail-soft correctness of `negascout` (negamax convention): the result
brackets the minimax value seen from the perspective of the player to move. -/
theorem negascout_fs (mp : Player) (md : XInt) :
    ∀ (fuel : Nat) (s : State) (player : Player) (alpha beta : XInt) (depth : Nat),
    WFState s = true → freeCells s < fuel → alpha < beta →
    FS (negascout mp md fuel s player alpha beta depth).1
      (if player = mp then minimaxVal mp md fuel s player depth
        else -(minimaxVal mp md fuel s player depth)) alpha beta := by
  intro fuel
  induction fuel with
  | zero =>
    intro s _ _ _ _ _ hf
    omega
  | succ f ihf =>
    intro s player alpha beta depth hw hf hab
    by_cases hp : player = mp
    · subst hp
      rw [if_pos rfl, negascout, minimaxVal]
      by_cases hterm : is_terminal_node s = true ∨ XInt.fin depth = md
      · rw [if_pos hterm, if_pos hterm, if_neg (Player.ne_other player), mul_one]
        exact FS.refl_eq
      · rw [if_neg hterm, if_neg hterm]
        dsimp only
        rw [if_neg (Player.ne_other player), if_pos rfl]
        have hstatus : s.get_state_status = none :=
          status_none_of_not_terminal (fun h => hterm (Or.inl h))
        have hne := possible_ne_nil_of_status hw hstatus
        have hmem : ∀ c ∈ s.get_possible_columns.mergeSort (sortLe player s),
            WFState (s.generate_successor_state c) = true ∧
              freeCells (s.generate_successor_state c) < f := by
          intro c hc
          have hcp := sorted_cols_mem.mp hc
          exact ⟨WFState_succ hw hcp, by have := freeCells_succ_lt hcp; omega⟩
        have hmain := nsLoop_full_fs
          (fun s' a b => negascout player md f s' player.other a b (depth + 1))
          (fun s' => minimaxVal player md f s' player.other (depth + 1)) s
          (s.get_possible_columns.mergeSort (sortLe player s))
          (sorted_cols_nodup player s) alpha beta
          (fun c hc a b hab2 => by
            have h := ihf _ player.other a b (depth + 1) (hmem c hc).1 (hmem c hc).2 hab2
            rw [if_neg (Player.other_ne player)] at h
            have h2 := FS_neg h
            rw [XInt.neg_neg] at h2
            exact h2)
          (fun c hc a b => negascout_fin player md f _ player.other a b (depth + 1)
            (hmem c hc).1 (hmem c hc).2)
          hab
        have hfold : (s.get_possible_columns.mergeSort (sortLe player s)).foldl
            (fun acc c =>
              max acc (minimaxVal player md f (s.generate_successor_state c)
                player.other (depth + 1)))
            XInt.negInf
            = s.get_possible_columns.foldl
            (fun acc c =>
              max acc (minimaxVal player md f (s.generate_successor_state c)
                player.other (depth + 1)))
            XInt.negInf :=
          foldl_max_perm _ (sorted_cols_perm player s) XInt.negInf
        rw [← hfold]
        exact hmain
    · rw [if_neg hp]
      have hp2 : player = mp.other := (Player.eq_or_eq_other mp player).resolve_left hp
      subst hp2
      rw [negascout, minimaxVal]
      by_cases hterm : is_terminal_node s = true ∨ XInt.fin depth = md
      · rw [if_pos hterm, if_pos hterm, if_pos rfl, mul_neg_one]
        rw [show -(XInt.fin (node_evaluation mp s))
            = XInt.fin (-(node_evaluation mp s)) from rfl]
        exact FS.refl_eq
      · rw [if_neg hterm, if_neg hterm]
        dsimp only
        rw [if_pos rfl, if_neg hp]
        have hstatus : s.get_state_status = none :=
          status_none_of_not_terminal (fun h => hterm (Or.inl h))
        have hne := possible_ne_nil_of_status hw hstatus
        have hmem : ∀ c ∈ s.get_possible_columns.mergeSort (sortLe mp s),
            WFState (s.generate_successor_state c) = true ∧
              freeCells (s.generate_successor_state c) < f := by
          intro c hc
          have hcp := sorted_cols_mem.mp hc
          exact ⟨WFState_succ hw hcp, by have := freeCells_succ_lt hcp; omega⟩
        have hmain := nsLoop_full_fs
          (fun s' a b => negascout mp md f s' mp a b (depth + 1))
          (fun s' => -(minimaxVal mp md f s' mp (depth + 1))) s
          (s.get_possible_columns.mergeSort (sortLe mp s))
          (sorted_cols_nodup mp s) alpha beta
          (fun c hc a b hab2 => by
            have h := ihf _ mp a b (depth + 1) (hmem c hc).1 (hmem c hc).2 hab2
            rw [if_pos rfl] at h
            exact FS_neg h)
          (fun c hc a b => negascout_fin mp md f _ mp a b (depth + 1)
            (hmem c hc).1 (hmem c hc).2)
          hab
        have hFeq : (s.get_possible_columns.mergeSort (sortLe mp s)).foldl
            (fun acc c =>
              max acc (-(minimaxVal mp md f (s.generate_successor_state c) mp (depth + 1))))
            XInt.negInf
            = -(s.get_possible_columns.foldl
            (fun acc c =>
              min acc (minimaxVal mp md f (s.generate_successor_state c) mp (depth + 1)))
            XInt.posInf) := by
          rw [neg_foldl_min
            (fun c => minimaxVal mp md f (s.generate_successor_state c) mp (depth + 1))
            s.get_possible_columns XInt.posInf]
          rw [show -XInt.posInf = XInt.negInf from rfl]
          exact foldl_max_perm _ (sorted_cols_perm mp s) XInt.negInf
        rw [hFeq] at hmain
        exact hmain

/-! ### Chosen-column lemmas -/

theorem abMaxLoop_chosen (recCall : State → XInt → XInt → XInt × Option Nat) (s : State) :
    ∀ (cols : List Nat) (score alpha beta : XInt) (chosen : Option Nat),
    (abMaxLoop recCall s cols score alpha beta chosen).2 = chosen ∨
      ∃ c ∈ cols, (abMaxLoop recCall s cols score alpha beta chosen).2 = some c := by
  intro cols
  induction cols with
  | nil =>
    intro score alpha beta chosen
    rw [abMaxLoop]
    exact Or.inl rfl
  | cons col rest ih =>
    intro score alpha beta chosen
    rw [abMaxLoop]
    by_cases hgt : (recCall (s.generate_successor_state col) alpha beta).1 > score
    · rw [if_pos hgt]
      by_cases hge : (recCall (s.generate_successor_state col) alpha beta).1 ≥ beta
      · rw [if_pos hge]
        exact Or.inr ⟨col, by simp, rfl⟩
      · rw [if_neg hge]
        rcases ih _ _ beta (some col) with h | ⟨c, hc, h⟩
        · exact Or.inr ⟨col, by simp, h⟩
        · exact Or.inr ⟨c, by simp [hc], h⟩
    · rw [if_neg hgt]
      by_cases hab : alpha ≥ beta
      · rw [if_pos hab]
        exact Or.inl rfl
      · rw [if_neg hab]
        rcases ih score alpha beta chosen with h | ⟨c, hc, h⟩
        · exact Or.inl h
        · exact Or.inr ⟨c, by simp [hc], h⟩

theorem nsLoop_chosen (recCall : State → XInt → XInt → XInt × Option Nat) (s : State)
    (firstCol : Nat) :
    ∀ (cols : List Nat) (score alpha beta : XInt) (chosen : Option Nat),
    (nsLoop recCall s firstCol cols score alpha beta chosen).2 = chosen ∨
      ∃ c ∈ cols, (nsLoop recCall s firstCol cols score alpha beta chosen).2 = some c := by
  intro cols
  induction cols with
  | nil =>
    intro score alpha beta chosen
    rw [nsLoop]
    exact Or.inl rfl
  | cons col rest ih =>
    intro score alpha beta chosen
    rw [nsLoop]
    by_cases hcf : col = firstCol
    · rw [if_pos hcf]
      by_cases hbrk : max alpha (max score
          (-(recCall (s.generate_successor_state col) (-beta) (-alpha)).1)) ≥ beta
      · rw [if_pos hbrk]
        exact Or.inr ⟨col, by simp, rfl⟩
      · rw [if_neg hbrk]
        rcases ih _ _ beta (some col) with h | ⟨c, hc, h⟩
        · exact Or.inr ⟨col, by simp, h⟩
        · exact Or.inr ⟨c, by simp [hc], h⟩
    · rw [if_neg hcf]
      by_cases hrs : alpha < -(recCall (s.generate_successor_state col)
          ((-alpha).sub1) (-alpha)).1 ∧
          -(recCall (s.generate_successor_state col) ((-alpha).sub1) (-alpha)).1 < beta
      · rw [if_pos hrs]
        by_cases hbrk : max alpha (max score
            (-(recCall (s.generate_successor_state col) (-beta) (-alpha)).1)) ≥ beta
        · rw [if_pos hbrk]
          exact Or.inr ⟨col, by simp, rfl⟩
        · rw [if_neg hbrk]
          rcases ih _ _ beta (some col) with h | ⟨c, hc, h⟩
          · exact Or.inr ⟨col, by simp, h⟩
          · exact Or.inr ⟨c, by simp [hc], h⟩
      · rw [if_neg hrs]
        by_cases hbrk : max alpha (max score
            (-(recCall (s.generate_successor_state col) ((-alpha).sub1) (-alpha)).1)) ≥ beta
        · rw [if_pos hbrk]
          exact Or.inl rfl
        · rw [if_neg hbrk]
          rcases ih _ _ beta chosen with h | ⟨c, hc, h⟩
          · exact Or.inl h
          · exact Or.inr ⟨c, by simp [hc], h⟩

/-- If no column can improve on the running best, the MAX loop changes
nothing. -/
theorem abMaxLoop_noImprove (recCall : State → XInt → XInt → XInt × Option Nat) (s : State) :
    ∀ (cols : List Nat) (score alpha beta : XInt) (chosen : Option Nat),
    (∀ c ∈ cols, (recCall (s.generate_successor_state c) alpha beta).1 ≤ score) →
    alpha < beta →
    abMaxLoop recCall s cols score alpha beta chosen = (score, chosen) := by
  intro cols
  induction cols with
  | nil =>
    intro score alpha beta chosen _ _
    rw [abMaxLoop]
  | cons col rest ih =>
    intro score alpha beta chosen hall hab
    rw [abMaxLoop]
    rw [if_neg (not_lt_of_le (hall col (by simp)))]
    rw [if_neg (not_le_of_lt hab)]
    exact ih score alpha beta chosen (fun c hc => hall c (by simp [hc])) hab

/-- If every probe stays at or below the running best, the NegaScout loop
changes nothing after the first column. -/
theorem nsLoop_noImprove (recCall : State → XInt → XInt → XInt × Option Nat) (s : State)
    (firstCol : Nat) :
    ∀ (cols : List Nat) (score alpha beta : XInt) (chosen : Option Nat),
    firstCol ∉ cols →
    (∀ c ∈ cols,
      -(recCall (s.generate_successor_state c) ((-alpha).sub1) (-alpha)).1 ≤ score) →
    score ≤ alpha → alpha < beta →
    nsLoop recCall s firstCol cols score alpha beta chosen = (score, chosen) := by
  intro cols
  induction cols with
  | nil =>
    intro score alpha beta chosen _ _ _ _
    rw [nsLoop]
  | cons col rest ih =>
    intro score alpha beta chosen hnm hall hsa hab
    rw [nsLoop]
    rw [if_neg (fun h => hnm (by simp [h]))]
    dsimp only
    have hple := hall col (by simp)
    rw [if_neg (fun hco => absurd (lt_of_lt_of_le (lt_of_le_of_lt hsa hco.1) hple)
      (lt_irrefl score))]
    rw [max_eq_left hple, max_eq_left hsa]
    rw [if_neg (not_le_of_lt hab)]
    exact ih score alpha beta chosen (fun h => hnm (by simp [h]))
      (fun c hc => hall c (by simp [hc])) hsa hab

/-! ### Root-level theorems -/

theorem set_max_depth_ne_fin_zero (d : Nat) : XInt.fin 0 ≠ set_max_depth d := by
  rw [set_max_depth]
  by_cases h : d ≠ 0
  · rw [if_pos h]
    intro he
    rw [XInt.fin.injEq] at he
    omega
  · rw [if_neg h]
    intro he
    cases he

theorem minimax_ab_root_chosen (mp : Player) (md : XInt) (s : State)
    (hw : WFState s = true) (hst : s.get_state_status = none)
    (hmd : XInt.fin 0 ≠ md) :
    ∃ c ∈ s.get_possible_columns,
      (minimax_ab mp md searchFuel s mp XInt.negInf XInt.posInf 0).2 = some c := by
  rw [show searchFuel = 42 + 1 from rfl, minimax_ab]
  have hterm : ¬(is_terminal_node s = true ∨ XInt.fin ((0 : Nat) : Int) = md) := by
    rintro (h | h)
    · rw [is_terminal_node, hst] at h
      cases h
    · exact hmd h
  rw [if_neg hterm, if_pos rfl]
  obtain ⟨h, t, hsorted⟩ := List.exists_cons_of_ne_nil
    (@sorted_cols_ne_nil mp s (possible_ne_nil_of_status hw hst))
  rw [hsorted, abMaxLoop]
  have hmemh : h ∈ s.get_possible_columns := sorted_cols_mem.mp (by rw [hsorted]; simp)
  have hfree : freeCells (s.generate_successor_state h) < 42 := by
    have h1 := freeCells_succ_lt hmemh
    have h2 := freeCells_lt_fuel s
    rw [searchFuel] at h2
    omega
  obtain ⟨k, hk⟩ := minimax_ab_fin mp md 42 (s.generate_successor_state h) mp.other
    XInt.negInf XInt.posInf (0 + 1) (WFState_succ hw hmemh) hfree
  have hgt : (minimax_ab mp md 42 (s.generate_successor_state h) mp.other
      XInt.negInf XInt.posInf (0 + 1)).1 > XInt.negInf := by
    rw [hk]; simp
  rw [if_pos hgt]
  have hge : ¬((minimax_ab mp md 42 (s.generate_successor_state h) mp.other
      XInt.negInf XInt.posInf (0 + 1)).1 ≥ XInt.posInf) := by
    rw [hk]; simp
  rw [if_neg hge]
  rcases abMaxLoop_chosen _ s t _ _ XInt.posInf (some h) with h2 | ⟨c, hc, h2⟩
  · exact ⟨h, hmemh, h2⟩
  · exact ⟨c, sorted_cols_mem.mp (by rw [hsorted]; simp [hc]), h2⟩

theorem negascout_root_chosen (mp : Player) (md : XInt) (s : State)
    (hw : WFState s = true) (hst : s.get_state_status = none)
    (hmd : XInt.fin 0 ≠ md) :
    ∃ c ∈ s.get_possible_columns,
      (negascout mp md searchFuel s mp XInt.negInf XInt.posInf 0).2 = some c := by
  rw [show searchFuel = 42 + 1 from rfl, negascout]
  have hterm : ¬(is_terminal_node s = true ∨ XInt.fin ((0 : Nat) : Int) = md) := by
    rintro (h | h)
    · rw [is_terminal_node, hst] at h
      cases h
    · exact hmd h
  rw [if_neg hterm]
  dsimp only
  rw [if_neg (Player.ne_other mp)]
  obtain ⟨h, t, hsorted⟩ := List.exists_cons_of_ne_nil
    (@sorted_cols_ne_nil mp s (possible_ne_nil_of_status hw hst))
  rw [hsorted, List.headD_cons, nsLoop, if_pos rfl]
  dsimp only
  have hmemh : h ∈ s.get_possible_columns := sorted_cols_mem.mp (by rw [hsorted]; simp)
  have hfree : freeCells (s.generate_successor_state h) < 42 := by
    have h1 := freeCells_succ_lt hmemh
    have h2 := freeCells_lt_fuel s
    rw [searchFuel] at h2
    omega
  obtain ⟨k, hk⟩ := negascout_fin mp md 42 (s.generate_successor_state h) mp.other
    (-XInt.posInf) (-XInt.negInf) (0 + 1) (WFState_succ hw hmemh) hfree
  have hcs : -(negascout mp md 42 (s.generate_successor_state h) mp.other
      (-XInt.posInf) (-XInt.negInf) (0 + 1)).1 = XInt.fin (-k) := by
    rw [hk]; rfl
  have hnb : ¬(max XInt.negInf (max XInt.negInf
      (-(negascout mp md 42 (s.generate_successor_state h) mp.other
        (-XInt.posInf) (-XInt.negInf) (0 + 1)).1)) ≥ XInt.posInf) := by
    rw [hcs, max_eq_right (XInt.negInf_le _), max_eq_right (XInt.negInf_le _)]
    simp
  rw [if_neg hnb]
  rcases nsLoop_chosen _ s h t _ _ XInt.posInf (some h) with h2 | ⟨c, hc, h2⟩
  · exact ⟨h, hmemh, h2⟩
  · exact ⟨c, sorted_cols_mem.mp (by rw [hsorted]; simp [hc]), h2⟩

/-- The root value of alpha-beta minimax and NegaScout coincide (both equal
the pruning-free minimax value). -/
theorem minimax_negascout_root_eq (mp : Player) (s : State) (md : XInt)
    (hw : WFState s = true) :
    (minimax_ab mp md searchFuel s mp XInt.negInf XInt.posInf 0).1
      = (negascout mp md searchFuel s mp XInt.negInf XInt.posInf 0).1 := by
  have hfree : freeCells s < searchFuel := freeCells_lt_fuel s
  have h1 := minimax_ab_fs mp md searchFuel s mp XInt.negInf XInt.posInf 0 hw hfree (by simp)
  have h2 := negascout_fs mp md searchFuel s mp XInt.negInf XInt.posInf 0 hw hfree (by simp)
  rw [if_pos rfl] at h2
  obtain ⟨n1, hn1⟩ := minimax_ab_fin mp md searchFuel s mp XInt.negInf XInt.posInf 0 hw hfree
  obtain ⟨n2, hn2⟩ := negascout_fin mp md searchFuel s mp XInt.negInf XInt.posInf 0 hw hfree
  have e1 := h1.2.1 (by rw [hn1]; simp) (by rw [hn1]; simp)
  have e2 := h2.2.1 (by rw [hn2]; simp) (by rw [hn2]; simp)
  rw [e1, e2]

/-! ### Depth-1 immediate wins -/

theorem minimax_depth1_child (mp : Player) (s' : State) (a b : XInt) :
    minimax_ab mp (XInt.fin 1) 42 s' mp.other a b (0 + 1)
      = (XInt.fin (node_evaluation mp s'), none) := by
  rw [show (42 : Nat) = 41 + 1 from rfl, minimax_ab]
  have hc : XInt.fin ((0 + 1 : Nat) : Int) = XInt.fin 1 := rfl
  rw [if_pos (Or.inr hc)]

theorem negascout_depth1_child (mp : Player) (s' : State) (a b : XInt) :
    negascout mp (XInt.fin 1) 42 s' mp.other a b (0 + 1)
      = (XInt.fin (node_evaluation mp s' * -1), none) := by
  rw [show (42 : Nat) = 41 + 1 from rfl, negascout]
  have hc : XInt.fin ((0 + 1 : Nat) : Int) = XInt.fin 1 := rfl
  rw [if_pos (Or.inr hc), if_pos rfl]

theorem winning_child_eval {s : State} {c : Nat}
    (hwin : (s.generate_successor_state c).get_state_status = some (GS.player s.next)) :
    (958 : Int) ≤ node_evaluation s.next (s.generate_successor_state c) := by
  rw [node_evaluation_win_mp hwin]
  have := count_tokens_le_42 ((s.generate_successor_state c).get_checkers s.next)
  omega

/-- If the head of the move ordering evaluates at least 958, its successor is
an immediate win for the player to move. -/
theorem head_is_win {s : State} {h : Nat}
    (hst : s.get_state_status = none) (hmemh : h ∈ s.get_possible_columns)
    (hbig : (958 : Int) ≤ node_evaluation s.next (s.generate_successor_state h)) :
    (s.generate_successor_state h).get_state_status = some (GS.player s.next) := by
  rcases hsh : (s.generate_successor_state h).get_state_status with _ | gs
  · exfalso
    have hb := (@node_evaluation_bounds s.next (s.generate_successor_state h) hsh).2
    omega
  · cases gs with
    | draw =>
      exfalso
      have hd := @node_evaluation_draw s.next (s.generate_successor_state h) hsh
      omega
    | player p =>
      rcases Player.eq_or_eq_other s.next p with hp | hp
      · rw [hp]
      · exfalso
        rw [hp] at hsh
        have hno := succ_status_not_opponent hst hmemh
        exact hno hsh

theorem minimax_ab_depth1_win (s : State)
    (hw : WFState s = true) (hst : s.get_state_status = none)
    {c0 : Nat} (hc0 : c0 ∈ s.get_possible_columns)
    (hwin : (s.generate_successor_state c0).get_state_status = some (GS.player s.next)) :
    ∃ c ∈ s.get_possible_columns,
      (minimax_ab s.next (XInt.fin 1) searchFuel s s.next XInt.negInf XInt.posInf 0).2
        = some c ∧
      (s.generate_successor_state c).get_state_status = some (GS.player s.next) := by
  obtain ⟨h, t, hsorted⟩ := List.exists_cons_of_ne_nil
    (@sorted_cols_ne_nil s.next s (possible_ne_nil_of_status hw hst))
  have hmemh : h ∈ s.get_possible_columns := sorted_cols_mem.mp (by rw [hsorted]; simp)
  have hheadge := sorted_head_eval_ge hsorted hc0
  have hheadbig : (958 : Int) ≤ node_evaluation s.next (s.generate_successor_state h) :=
    le_trans (winning_child_eval hwin) hheadge
  have hwinh := head_is_win hst hmemh hheadbig
  rw [show searchFuel = 42 + 1 from rfl, minimax_ab]
  have hterm : ¬(is_terminal_node s = true ∨ XInt.fin ((0 : Nat) : Int) = XInt.fin 1) := by
    rintro (h1 | h1)
    · rw [is_terminal_node, hst] at h1
      cases h1
    · rw [XInt.fin.injEq] at h1
      omega
  rw [if_neg hterm, if_pos rfl, hsorted, abMaxLoop]
  rw [minimax_depth1_child]
  dsimp only
  rw [if_pos (show XInt.fin (node_evaluation s.next (s.generate_successor_state h))
      > XInt.negInf by simp)]
  rw [if_neg (show ¬(XInt.fin (node_evaluation s.next (s.generate_successor_state h))
      ≥ XInt.posInf) by simp)]
  rw [abMaxLoop_noImprove _ s t _ _ XInt.posInf (some h) ?hall (by simp)]
  · exact ⟨h, hmemh, rfl, hwinh⟩
  case hall =>
    intro c hc
    rw [minimax_depth1_child]
    dsimp only
    rw [XInt.fin_le_fin]
    exact sorted_head_eval_ge hsorted (sorted_cols_mem.mp (by rw [hsorted]; simp [hc]))

theorem negascout_depth1_win (s : State)
    (hw : WFState s = true) (hst : s.get_state_status = none)
    {c0 : Nat} (hc0 : c0 ∈ s.get_possible_columns)
    (hwin : (s.generate_successor_state c0).get_state_status = some (GS.player s.next)) :
    ∃ c ∈ s.get_possible_columns,
      (negascout s.next (XInt.fin 1) searchFuel s s.next XInt.negInf XInt.posInf 0).2
        = some c ∧
      (s.generate_successor_state c).get_state_status = some (GS.player s.next) := by
  obtain ⟨h, t, hsorted⟩ := List.exists_cons_of_ne_nil
    (@sorted_cols_ne_nil s.next s (possible_ne_nil_of_status hw hst))
  have hmemh : h ∈ s.get_possible_columns := sorted_cols_mem.mp (by rw [hsorted]; simp)
  have hheadge := sorted_head_eval_ge hsorted hc0
  have hheadbig : (958 : Int) ≤ node_evaluation s.next (s.generate_successor_state h) :=
    le_trans (winning_child_eval hwin) hheadge
  have hwinh := head_is_win hst hmemh hheadbig
  have hnegchild : ∀ (s' : State) (a b : XInt),
      -(negascout s.next (XInt.fin 1) 42 s' s.next.other a b (0 + 1)).1
        = XInt.fin (node_evaluation s.next s') := by
    intro s' a b
    rw [negascout_depth1_child]
    show XInt.fin (-(node_evaluation s.next s' * -1)) = XInt.fin (node_evaluation s.next s')
    rw [XInt.fin.injEq]
    omega
  rw [show searchFuel = 42 + 1 from rfl, negascout]
  have hterm : ¬(is_terminal_node s = true ∨ XInt.fin ((0 : Nat) : Int) = XInt.fin 1) := by
    rintro (h1 | h1)
    · rw [is_terminal_node, hst] at h1
      cases h1
    · rw [XInt.fin.injEq] at h1
      omega
  rw [if_neg hterm]
  dsimp only
  rw [if_neg (Player.ne_other s.next)]
  rw [hsorted, List.headD_cons, nsLoop, if_pos rfl]
  dsimp only
  rw [hnegchild]
  rw [max_eq_right (XInt.negInf_le _), max_eq_right (XInt.negInf_le _)]
  rw [if_neg (show ¬(XInt.fin (node_evaluation s.next (s.generate_successor_state h))
      ≥ XInt.posInf) by simp)]
  rw [nsLoop_noImprove _ s h t _ _ XInt.posInf (some h)
    (List.nodup_cons.mp (by rw [← hsorted]; exact sorted_cols_nodup s.next s)).1
    ?hall (le_refl _) (by simp)]
  · exact ⟨h, hmemh, rfl, hwinh⟩
  case hall =>
    intro c hc
    rw [hnegchild]
    rw [XInt.fin_le_fin]
    exact sorted_head_eval_ge hsorted (sorted_cols_mem.mp (by rw [hsorted]; simp [hc]))

/-! ### Terminal-position behaviour of the two searches -/

theorem minimax_ab_terminal {s : State} (mp player : Player) (md alpha beta : XInt)
    (fuel depth : Nat) (hterm : is_terminal_node s = true) :
    minimax_ab mp md (fuel + 1) s player alpha beta depth
      = (XInt.fin (node_evaluation mp s), none) := by
  rw [minimax_ab, if_pos (Or.inl hterm)]

theorem negascout_terminal {s : State} (mp player : Player) (md alpha beta : XInt)
    (fuel depth : Nat) (hterm : is_terminal_node s = true) :
    negascout mp md (fuel + 1) s player alpha beta depth
      = (XInt.fin (node_evaluation mp s * (if player = mp.other then -1 else 1)),
         none) := by
  rw [negascout, if_pos (Or.inl hterm)]

theorem is_terminal_of_status {s : State} {gs : GS}
    (hst : s.get_state_status = some gs) : is_terminal_node s = true := by
  rw [is_terminal_node, hst]
  rfl

/-! ### The claims -/

/-- C1: for every well-formed position and every depth bound, alpha-beta
minimax and NegaScout, each started at the root with the maximizing player
to move, window `(-∞, ∞)` and depth 0, return the same game value. -/
theorem C1_root_values_equal (mp : Player) (s : State) (md : XInt)
    (hw : WFState s = true) :
    (minimax_ab mp md searchFuel s mp XInt.negInf XInt.posInf 0).1
      = (negascout mp md searchFuel s mp XInt.negInf XInt.posInf 0).1 :=
  minimax_negascout_root_eq mp s md hw

/-- C1 witness: the empty board with red to move, depth bound 1. -/
theorem C1_root_values_equal_witness :
    WFState ⟨0, 0, Player.red⟩ = true
    ∧ (minimax_ab Player.red (XInt.fin 1) searchFuel ⟨0, 0, Player.red⟩ Player.red
        XInt.negInf XInt.posInf 0).1
      = (negascout Player.red (XInt.fin 1) searchFuel ⟨0, 0, Player.red⟩ Player.red
        XInt.negInf XInt.posInf 0).1 :=
  ⟨by decide, C1_root_values_equal Player.red ⟨0, 0, Player.red⟩ (XInt.fin 1) (by decide)⟩

/-- C2 counterexample: on a position red has already won, both agents
complete normally — the call is not rejected as a precondition failure; the
search is invoked, the module globals are overwritten and `None` is
returned as the chosen column. -/
theorem C2_no_rejection_counterexample :
    (⟨15, 448, Player.yel⟩ : State).get_state_status = some (GS.player Player.red)
    ∧ MinimaxABAgent.get_chosen_column initGlobals ⟨15, 448, Player.yel⟩ 2
        = (⟨some (XInt.fin 2), some Player.yel, some Player.red⟩, none)
    ∧ Negascout.get_chosen_column initGlobals ⟨15, 448, Player.yel⟩ 2
        = (⟨some (XInt.fin 2), some Player.yel, some Player.red⟩, none) := by
  decide

/-- C2 (amended): `get_chosen_column` performs no precondition check at all.
On an already-terminal position both agents still overwrite the module
globals, invoke the search (which returns at once on the terminal root) and
return `none` as the chosen column — a normal completion, not a rejection. -/
theorem C2_terminal_not_rejected (g : Globals) (s : State) (d : Nat) (gs : GS)
    (hst : s.get_state_status = some gs) :
    MinimaxABAgent.get_chosen_column g s d
      = (⟨some (set_max_depth d), some s.get_next_on_move,
          some (if s.get_next_on_move = Player.yel then Player.red else Player.yel)⟩,
         none)
    ∧ Negascout.get_chosen_column g s d
      = (⟨some (set_max_depth d), some s.get_next_on_move,
          some (if s.get_next_on_move = Player.yel then Player.red else Player.yel)⟩,
         none) := by
  have hterm := is_terminal_of_status hst
  have h1 := minimax_ab_terminal (s := s) s.get_next_on_move s.get_next_on_move
    (set_max_depth d) XInt.negInf XInt.posInf 42 0 hterm
  have h2 := negascout_terminal (s := s) s.get_next_on_move s.get_next_on_move
    (set_max_depth d) XInt.negInf XInt.posInf 42 0 hterm
  constructor
  · rw [MinimaxABAgent.get_chosen_column]
    rw [Prod.mk.injEq]
    exact ⟨rfl, congrArg Prod.snd h1⟩
  · rw [Negascout.get_chosen_column]
    rw [Prod.mk.injEq]
    exact ⟨rfl, congrArg Prod.snd h2⟩

/-- C2 witness: a position yellow has already won, queried at depth 3. -/
theorem C2_terminal_not_rejected_witness :
    (⟨28672, 15, Player.red⟩ : State).get_state_status = some (GS.player Player.yel)
    ∧ (MinimaxABAgent.get_chosen_column initGlobals ⟨28672, 15, Player.red⟩ 3
        = (⟨some (set_max_depth 3), some (⟨28672, 15, Player.red⟩ : State).get_next_on_move,
            some (if (⟨28672, 15, Player.red⟩ : State).get_next_on_move = Player.yel
              then Player.red else Player.yel)⟩, none)
      ∧ Negascout.get_chosen_column initGlobals ⟨28672, 15, Player.red⟩ 3
        = (⟨some (set_max_depth 3), some (⟨28672, 15, Player.red⟩ : State).get_next_on_move,
            some (if (⟨28672, 15, Player.red⟩ : State).get_next_on_move = Player.yel
              then Player.red else Player.yel)⟩, none)) :=
  ⟨by decide,
   C2_terminal_not_rejected initGlobals ⟨28672, 15, Player.red⟩ 3
     (GS.player Player.yel) (by decide)⟩

/-- C3 counterexample: a single call of `get_chosen_column` mutates the
ambient module state — the three globals afterwards differ from what they
were before, so the per-search parameters are held as shared mutable
globals rather than threaded as an immutable per-call context. -/
theorem C3_globals_mutated_counterexample :
    (MinimaxABAgent.get_chosen_column initGlobals ⟨960, 7, Player.yel⟩ 3).1
      ≠ initGlobals := by
  decide

/-- C3 (amended): although the player identities and the depth bound are
written into module globals, each entry point overwrites all three before
searching, so the result of a search (both the updated globals and the
chosen column) depends only on the explicit arguments: a search run after
any other search returns exactly what it returns from a fresh module
state. -/
theorem C3_result_independent_of_prior_search (g₁ g₂ : Globals) (s t : State)
    (d e : Nat) :
    MinimaxABAgent.get_chosen_column
        ((MinimaxABAgent.get_chosen_column g₁ t e).1) s d
      = MinimaxABAgent.get_chosen_column g₂ s d
    ∧ Negascout.get_chosen_column ((Negascout.get_chosen_column g₁ t e).1) s d
      = Negascout.get_chosen_column g₂ s d :=
  ⟨rfl, rfl⟩

/-- C4: the evaluator returns `1000 −` the maximizer's token count when the
maximizer has won, `−1000 +` the minimizer's token count when the minimizer
has won, `0` on a draw, and otherwise the number of winning-line masks
containing no cell of the minimizer minus the number containing no cell of
the maximizer. -/
theorem C4_evaluator_formula (mp : Player) (s : State) :
    node_evaluation mp s =
      if s.get_state_status = some (GS.player mp) then
        1000 - ((List.range 42).countP (fun i => (s.get_checkers mp).testBit i) : Int)
      else if s.get_state_status = some (GS.player mp.other) then
        -1000 + ((List.range 42).countP
          (fun i => (s.get_checkers mp.other).testBit i) : Int)
      else if s.get_state_status = some GS.draw then 0
      else
        (State.win_masks.countP
            (fun m => decide (m &&& s.get_checkers mp.other = 0)) : Int)
          - (State.win_masks.countP
            (fun m => decide (m &&& s.get_checkers mp = 0)) : Int) := by
  split_ifs with h1 h2 h3
  · rw [node_evaluation_win_mp h1, count_tokens_eq]
  · rw [node_evaluation_win_other h2, count_tokens_eq]
  · exact node_evaluation_draw h3
  · have hn : s.get_state_status = none := by
      rcases hs : s.get_state_status with _ | gs
      · rfl
      · exfalso
        cases gs with
        | draw => exact h3 hs
        | player p =>
          rcases Player.eq_or_eq_other mp p with hp | hp
          · subst hp; exact h1 hs
          · subst hp; exact h2 hs
    exact node_evaluation_heuristic hn

/-- C5: terminal detection takes precedence over the depth bound — on a
position that is terminal exactly when the search reaches the depth limit,
both algorithms return the decisive terminal score (win/loss/draw branch of
the evaluator), not the non-terminal heuristic estimate. -/
theorem C5_terminal_beats_depth_limit (mp player : Player) (md alpha beta : XInt)
    (fuel depth : Nat) (s : State) (gs : GS)
    (hd : XInt.fin (depth : Int) = md) (hst : s.get_state_status = some gs) :
    (minimax_ab mp md (fuel + 1) s player alpha beta depth).1
        = XInt.fin (node_evaluation mp s)
    ∧ (negascout mp md (fuel + 1) s player alpha beta depth).1
        = XInt.fin (node_evaluation mp s * (if player = mp.other then -1 else 1))
    ∧ node_evaluation mp s
        = (if s.get_state_status = some (GS.player mp) then
             1000 - (count_tokens (s.get_checkers mp) : Int)
           else if s.get_state_status = some (GS.player mp.other) then
             -1000 + (count_tokens (s.get_checkers mp.other) : Int)
           else 0) := by
  have hterm := is_terminal_of_status hst
  refine ⟨?_, ?_, ?_⟩
  · rw [minimax_ab_terminal mp player md alpha beta fuel depth hterm]
  · rw [negascout_terminal mp player md alpha beta fuel depth hterm]
  · cases gs with
    | draw =>
      rw [node_evaluation_draw hst, hst]
      rw [if_neg (by simp), if_neg (by simp)]
    | player p =>
      rcases Player.eq_or_eq_other mp p with hp | hp
      · subst hp
        rw [node_evaluation_win_mp hst, hst, if_pos rfl]
      · subst hp
        rw [node_evaluation_win_other hst, hst]
        rw [if_neg (by simp [Player.other_ne mp]), if_pos rfl]

/-- C5 witness: red's win on column 2 reached exactly at depth limit 2. -/
theorem C5_terminal_beats_depth_limit_witness :
    XInt.fin ((2 : Nat) : Int) = XInt.fin 2
    ∧ (⟨61440, 448, Player.yel⟩ : State).get_state_status = some (GS.player Player.red)
    ∧ ((minimax_ab Player.yel (XInt.fin 2) (0 + 1) ⟨61440, 448, Player.yel⟩ Player.yel
          XInt.negInf XInt.posInf 2).1
        = XInt.fin (node_evaluation Player.yel ⟨61440, 448, Player.yel⟩)
      ∧ (negascout Player.yel (XInt.fin 2) (0 + 1) ⟨61440, 448, Player.yel⟩ Player.yel
          XInt.negInf XInt.posInf 2).1
        = XInt.fin (node_evaluation Player.yel ⟨61440, 448, Player.yel⟩
            * (if Player.yel = Player.yel.other then -1 else 1))
      ∧ node_evaluation Player.yel ⟨61440, 448, Player.yel⟩
        = (if (⟨61440, 448, Player.yel⟩ : State).get_state_status
              = some (GS.player Player.yel) then
             1000 - (count_tokens
               ((⟨61440, 448, Player.yel⟩ : State).get_checkers Player.yel) : Int)
           else if (⟨61440, 448, Player.yel⟩ : State).get_state_status
              = some (GS.player Player.yel.other) then
             -1000 + (count_tokens
               ((⟨61440, 448, Player.yel⟩ : State).get_checkers Player.yel.other) : Int)
           else 0)) :=
  ⟨rfl, by decide,
   C5_terminal_beats_depth_limit Player.yel Player.yel (XInt.fin 2)
     XInt.negInf XInt.posInf 0 2 ⟨61440, 448, Player.yel⟩ (GS.player Player.red)
     rfl (by decide)⟩

/-- C6: on a non-terminal position with a column that wins immediately for
the player to move, a depth-bound-1 search by either agent records a
winning column as the chosen column. -/
theorem C6_depth1_immediate_win (g₁ g₂ : Globals) (s : State) (c₀ : Nat)
    (hw : WFState s = true) (hst : s.get_state_status = none)
    (hc₀ : c₀ ∈ s.get_possible_columns)
    (hwin : (s.generate_successor_state c₀).get_state_status
      = some (GS.player s.get_next_on_move)) :
    (∃ c ∈ s.get_possible_columns,
        (MinimaxABAgent.get_chosen_column g₁ s 1).2 = some c
        ∧ (s.generate_successor_state c).get_state_status
            = some (GS.player s.get_next_on_move))
    ∧ (∃ c ∈ s.get_possible_columns,
        (Negascout.get_chosen_column g₂ s 1).2 = some c
        ∧ (s.generate_successor_state c).get_state_status
            = some (GS.player s.get_next_on_move)) := by
  constructor
  · obtain ⟨c, hc, he, hwc⟩ := minimax_ab_depth1_win s hw hst hc₀ hwin
    refine ⟨c, hc, ?_, hwc⟩
    rw [MinimaxABAgent.get_chosen_column]
    exact he
  · obtain ⟨c, hc, he, hwc⟩ := negascout_depth1_win s hw hst hc₀ hwin
    refine ⟨c, hc, ?_, hwc⟩
    rw [Negascout.get_chosen_column]
    exact he

/-- C6 witness: red has three tokens on column 0, yellow three on column 1,
red to move; dropping into column 0 wins at once. -/
theorem C6_depth1_immediate_win_witness :
    WFState ⟨7, 448, Player.red⟩ = true
    ∧ (⟨7, 448, Player.red⟩ : State).get_state_status = none
    ∧ 0 ∈ (⟨7, 448, Player.red⟩ : State).get_possible_columns
    ∧ ((⟨7, 448, Player.red⟩ : State).generate_successor_state 0).get_state_status
        = some (GS.player (⟨7, 448, Player.red⟩ : State).get_next_on_move)
    ∧ ((∃ c ∈ (⟨7, 448, Player.red⟩ : State).get_possible_columns,
          (MinimaxABAgent.get_chosen_column initGlobals ⟨7, 448, Player.red⟩ 1).2
            = some c
          ∧ ((⟨7, 448, Player.red⟩ : State).generate_successor_state c).get_state_status
              = some (GS.player (⟨7, 448, Player.red⟩ : State).get_next_on_move))
      ∧ (∃ c ∈ (⟨7, 448, Player.red⟩ : State).get_possible_columns,
          (Negascout.get_chosen_column initGlobals ⟨7, 448, Player.red⟩ 1).2
            = some c
          ∧ ((⟨7, 448, Player.red⟩ : State).generate_successor_state c).get_state_status
              = some (GS.player (⟨7, 448, Player.red⟩ : State).get_next_on_move))) :=
  ⟨by decide, by decide, by decide, by decide,
   C6_depth1_immediate_win initGlobals initGlobals ⟨7, 448, Player.red⟩ 0
     (by decide) (by decide) (by decide) (by decide)⟩

/-- C7: on a non-terminal well-formed root with any depth bound other than
`fin 0` (the agents never produce `fin 0`), both searches started with the
full window at depth 0 set the root's chosen column to a legal column. -/
theorem C7_root_chosen_is_legal (mp : Player) (md : XInt) (s : State)
    (hw : WFState s = true) (hst : s.get_state_status = none)
    (hmd : XInt.fin 0 ≠ md) :
    (∃ c ∈ s.get_possible_columns,
        (minimax_ab mp md searchFuel s mp XInt.negInf XInt.posInf 0).2 = some c)
    ∧ (∃ c ∈ s.get_possible_columns,
        (negascout mp md searchFuel s mp XInt.negInf XInt.posInf 0).2 = some c) :=
  ⟨minimax_ab_root_chosen mp md s hw hst hmd,
   negascout_root_chosen mp md s hw hst hmd⟩

/-- C7 witness: yellow has one token, red to move, depth bound 2. -/
theorem C7_root_chosen_is_legal_witness :
    WFState ⟨0, 1, Player.red⟩ = true
    ∧ (⟨0, 1, Player.red⟩ : State).get_state_status = none
    ∧ XInt.fin 0 ≠ XInt.fin 2
    ∧ ((∃ c ∈ (⟨0, 1, Player.red⟩ : State).get_possible_columns,
          (minimax_ab Player.red (XInt.fin 2) searchFuel ⟨0, 1, Player.red⟩
            Player.red XInt.negInf XInt.posInf 0).2 = some c)
      ∧ (∃ c ∈ (⟨0, 1, Player.red⟩ : State).get_possible_columns,
          (negascout Player.red (XInt.fin 2) searchFuel ⟨0, 1, Player.red⟩
            Player.red XInt.negInf XInt.posInf 0).2 = some c)) :=
  ⟨by decide, by decide, by decide,
   C7_root_chosen_is_legal Player.red (XInt.fin 2) ⟨0, 1, Player.red⟩
     (by decide) (by decide) (by decide)⟩

/-- C8: on a non-terminal position the heuristic score with one player as
maximizer is the negation of the score with the two roles swapped. -/
theorem C8_heuristic_antisymmetric (mp : Player) (s : State)
    (hst : s.get_state_status = none) :
    node_evaluation mp s = -(node_evaluation mp.other s) := by
  rw [node_evaluation_heuristic hst, @node_evaluation_heuristic mp.other s hst,
      Player.other_other]
  omega

/-- C8 witness: one red and one yellow token on the board. -/
theorem C8_heuristic_antisymmetric_witness :
    (⟨1, 64, Player.yel⟩ : State).get_state_status = none
    ∧ node_evaluation Player.yel ⟨1, 64, Player.yel⟩
        = -(node_evaluation Player.yel.other ⟨1, 64, Player.yel⟩) :=
  ⟨by decide,
   C8_heuristic_antisymmetric Player.yel ⟨1, 64, Player.yel⟩ (by decide)⟩

/-- C9: a depth argument of 0 makes the search unbounded — the stored depth
bound becomes `+∞`, no finite recursion depth ever equals `+∞` (so the
depth-limit cutoff never triggers and only terminal positions stop the
recursion), and both agents record `+∞` as the module's `max_depth`. -/
theorem C9_depth0_is_unbounded :
    set_max_depth 0 = XInt.posInf
    ∧ (∀ d : Nat, XInt.fin (d : Int) ≠ XInt.posInf)
    ∧ (∀ s : State, ∀ d : Nat,
        ((is_terminal_node s = true ∨ XInt.fin (d : Int) = set_max_depth 0)
          ↔ is_terminal_node s = true))
    ∧ (∀ g : Globals, ∀ s : State,
        (MinimaxABAgent.get_chosen_column g s 0).1.max_depth = some XInt.posInf)
    ∧ (∀ g : Globals, ∀ s : State,
        (Negascout.get_chosen_column g s 0).1.max_depth = some XInt.posInf) := by
  refine ⟨rfl, ?_, ?_, fun g s => rfl, fun g s => rfl⟩
  · intro d h
    exact XInt.noConfusion h
  · intro s d
    constructor
    · rintro (h | h)
      · exact h
      · exact XInt.noConfusion h
    · exact Or.inl

/-- C10: called on an already-terminal position, both searches return
`(the evaluator's score, no chosen column)` at the root, and both agents
return `none` as the chosen column without any error. -/
theorem C10_terminal_root_returns_none (g₁ g₂ : Globals) (s : State) (d : Nat)
    (gs : GS) (hst : s.get_state_status = some gs) :
    minimax_ab s.get_next_on_move (set_max_depth d) searchFuel s
        s.get_next_on_move XInt.negInf XInt.posInf 0
      = (XInt.fin (node_evaluation s.get_next_on_move s), none)
    ∧ negascout s.get_next_on_move (set_max_depth d) searchFuel s
        s.get_next_on_move XInt.negInf XInt.posInf 0
      = (XInt.fin (node_evaluation s.get_next_on_move s), none)
    ∧ (MinimaxABAgent.get_chosen_column g₁ s d).2 = none
    ∧ (Negascout.get_chosen_column g₂ s d).2 = none := by
  have hterm := is_terminal_of_status hst
  have h1 := minimax_ab_terminal (s := s) s.get_next_on_move s.get_next_on_move
    (set_max_depth d) XInt.negInf XInt.posInf 42 0 hterm
  have h2 := negascout_terminal (s := s) s.get_next_on_move s.get_next_on_move
    (set_max_depth d) XInt.negInf XInt.posInf 42 0 hterm
  rw [if_neg (Player.ne_other s.get_next_on_move), mul_one] at h2
  refine ⟨h1, h2, ?_, ?_⟩
  · rw [MinimaxABAgent.get_chosen_column]
    exact congrArg Prod.snd h1
  · rw [Negascout.get_chosen_column]
    exact congrArg Prod.snd h2

/-- C10 witness: yellow has already won on column 0, red "to move",
queried at depth 4. -/
theorem C10_terminal_root_returns_none_witness :
    (⟨28672, 15, Player.yel⟩ : State).get_state_status = some (GS.player Player.yel)
    ∧ (minimax_ab (⟨28672, 15, Player.yel⟩ : State).get_next_on_move
          (set_max_depth 4) searchFuel ⟨28672, 15, Player.yel⟩
          (⟨28672, 15, Player.yel⟩ : State).get_next_on_move
          XInt.negInf XInt.posInf 0
        = (XInt.fin (node_evaluation
            (⟨28672, 15, Player.yel⟩ : State).get_next_on_move
            ⟨28672, 15, Player.yel⟩), none)
      ∧ negascout (⟨28672, 15, Player.yel⟩ : State).get_next_on_move
          (set_max_depth 4) searchFuel ⟨28672, 15, Player.yel⟩
          (⟨28672, 15, Player.yel⟩ : State).get_next_on_move
          XInt.negInf XInt.posInf 0
        = (XInt.fin (node_evaluation
            (⟨28672, 15, Player.yel⟩ : State).get_next_on_move
            ⟨28672, 15, Player.yel⟩), none)
      ∧ (MinimaxABAgent.get_chosen_column initGlobals ⟨28672, 15, Player.yel⟩ 4).2
          = none
      ∧ (Negascout.get_chosen_column initGlobals ⟨28672, 15, Player.yel⟩ 4).2
          = none) :=
  ⟨by decide,
   C10_terminal_root_returns_none initGlobals initGlobals ⟨28672, 15, Player.yel⟩ 4
     (GS.player Player.yel) (by decide)⟩
